import Mathlib

/-!
Verification of the NNCF common-graph layer (`nncf/common/graph/graph.py`).

The Python module stores a DNN execution graph inside a `networkx.DiGraph`
(`self._nx_graph`), plus three auxiliary dictionaries: `_node_id_to_key_dict`,
`_input_nncf_nodes` and `_output_nncf_nodes`.  This file shallowly embeds that
state and the operations the specification talks about:

* `add_nncf_node` / `add_edge_between_nncf_nodes` (construction),
* `get_node_by_id` / `get_node_key_by_id` / `get_input_edges` (lookups),
* `topological_sort` (a lexicographical Kahn's algorithm, which is what
  `networkx.lexicographical_topological_sort` with `key = node id` performs),
* `traverse_graph` (recursive multi-visit traversal),
* `_get_nncf_graph_pattern_input_output` (structural boundary extraction),
* `__eq__` (attribute-matching graph isomorphism, as performed by
  `networkx.is_isomorphic` with categorical node/edge matchers).

Python dictionaries are modelled as insertion-ordered association lists
(updating an existing key keeps its position, a new key is appended), which is
exactly the observable behaviour of CPython dicts and of the adjacency
dictionaries inside `networkx.DiGraph`.  Python exceptions are modelled with
`Except`: `KeyError`/`ValueError`/`RuntimeError` raised by the module are
mapped to the error taxonomy the specification names (`DuplicateIdError`,
`UnknownNodeError`, `InvalidTopologyError`, `CyclicGraphError`,
`InvalidMatchError`).
-/

/-- Modelled from the spec: the operator-metatype registry
(`nncf.common.graph.operator_metatypes`, whose source is not part of this
repository snapshot) exposes `get_input_metatypes()` and
`get_output_metatypes()`.  The spec describes a metatype as "a polymorphic
operator classification value drawn from a fixed taxonomy — used to detect
graph input and graph output operation kinds", so a metatype is modelled as a
named tag carrying its membership in those two registry sets. -/
structure OperatorMetatype where
  mt_name : String
  isInput : Bool
  isOutput : Bool
deriving DecidableEq

/-- The node attribute record stored for every node of the wrapped
`networkx.DiGraph` by `NNCFGraph.add_nncf_node` (attrs dict with keys
`id`, `key`, `node_name`, `type`, `metatype`, `is_in_iteration_scope`,
`is_integer_input`, `module_attributes` (optional) and `ignored_algos`).
`module_attributes` carries an opaque payload, modelled as a string;
it is `none` exactly when the Python dict has no such key. -/
structure NodeAttrs where
  id : Nat
  key : String
  node_name : String
  type : String
  metatype : OperatorMetatype
  is_in_iteration_scope : Bool
  is_integer_input : Bool
  module_attributes : Option String
  ignored_algos : List String
deriving DecidableEq

/-- The edge attribute record stored by `add_edge_between_nncf_nodes`
(attrs dict with keys `activation_shape`, `in_port` and `dtype`). -/
structure EdgeAttrs where
  activation_shape : List Int
  in_port : Nat
  dtype : String
deriving DecidableEq

/-- The class `NNCFNode`: a node id together with (a reference to) the node's
attribute dict. -/
structure NNCFNode where
  node_id : Nat
  data : NodeAttrs
deriving DecidableEq

/-- One directed edge of the wrapped `networkx.DiGraph`, with its attributes. -/
structure NxEdge where
  src : String
  dst : String
  attrs : EdgeAttrs
deriving DecidableEq

/-- The part of a `networkx.DiGraph` this module uses: insertion-ordered
node and edge stores.  `nodes` is keyed by the node key string; `edges` holds
at most one entry per `(src, dst)` pair (a `DiGraph` is not a multigraph). -/
structure NxDiGraph where
  nodes : List (String × NodeAttrs)
  edges : List NxEdge
deriving DecidableEq

/-- Association-list lookup, the model of Python `dict.__getitem__`/`get`. -/
def alistFind {α β : Type} [DecidableEq α] : List (α × β) → α → Option β
  | [], _ => none
  | p :: d, k => if p.1 = k then some p.2 else alistFind d k

/-- Association-list update, the model of Python `dict.__setitem__`:
an existing key keeps its position, a new key is appended at the end. -/
def alistInsert {α β : Type} [DecidableEq α] : List (α × β) → α → β → List (α × β)
  | [], k, v => [(k, v)]
  | p :: d, k, v => if p.1 = k then (k, v) :: d else p :: alistInsert d k v

namespace NxDiGraph

/-- Node keys in insertion order (`G.nodes`). -/
def nodeKeys (g : NxDiGraph) : List String := g.nodes.map Prod.fst

/-- Attribute lookup `G.nodes[key]`. -/
def lookupNode (g : NxDiGraph) (k : String) : Option NodeAttrs := alistFind g.nodes k

/-- Edge attribute lookup `G.edges[u, v]`. -/
def lookupEdge (g : NxDiGraph) (u v : String) : Option EdgeAttrs :=
  match g.edges.find? (fun e => e.src = u ∧ e.dst = v) with
  | some e => some e.attrs
  | none => none

/-- The model of `G.add_node(key, **attrs)`: an existing node has its
attributes overwritten in place, a new node is appended. -/
def addNode (g : NxDiGraph) (k : String) (a : NodeAttrs) : NxDiGraph :=
  { g with nodes := alistInsert g.nodes k a }

/-- Edge-store update used by `addEdge`. -/
def edgeUpdate : List NxEdge → String → String → EdgeAttrs → List NxEdge
  | [], u, v, a => [⟨u, v, a⟩]
  | e :: es, u, v, a =>
    if e.src = u ∧ e.dst = v then ⟨u, v, a⟩ :: es else e :: edgeUpdate es u v a

/-- The model of `G.add_edge(u, v, **attrs)` on a `networkx.DiGraph`: a
`DiGraph` holds at most one edge per ordered pair, so adding an edge that
already exists overwrites its attributes in place (the callers in this module
only ever call it with both endpoints already present, so endpoint auto-add
never triggers). -/
def addEdge (g : NxDiGraph) (u v : String) (a : EdgeAttrs) : NxDiGraph :=
  { g with edges := edgeUpdate g.edges u v a }

/-- Incoming edges of a node key, in insertion order (`G.in_edges(key)`). -/
def inEdges (g : NxDiGraph) (k : String) : List NxEdge :=
  g.edges.filter (fun e => e.dst = k)

/-- Outgoing edges of a node key, in insertion order (`G.out_edges(key)`). -/
def outEdges (g : NxDiGraph) (k : String) : List NxEdge :=
  g.edges.filter (fun e => e.src = k)

/-- Successor keys in adjacency order (`G.succ[key]`). -/
def succKeys (g : NxDiGraph) (k : String) : List String :=
  (g.outEdges k).map NxEdge.dst

/-- Predecessor keys in adjacency order (`G.pred[key]`). -/
def predKeys (g : NxDiGraph) (k : String) : List String :=
  (g.inEdges k).map NxEdge.src

end NxDiGraph

/-! ### Node keys

`add_nncf_node` derives the storage key of a node as the f-string
`f'{node_id} {node_name}'`, i.e. the decimal rendering of the id, one space,
then the name.  We model the decimal rendering explicitly (`natDigits`) so
that its injectivity and space-freeness can be proved; on every concrete
number it computes the usual decimal numeral. -/

/-- Fuel-bounded digit expansion; `fuel > n` always suffices because the
quotient shrinks strictly at each step. -/
def natDigitsAux : Nat → Nat → List Char
  | 0, _ => []
  | fuel + 1, n =>
    if n < 10 then [Nat.digitChar n]
    else natDigitsAux fuel (n / 10) ++ [Nat.digitChar (n % 10)]

/-- Decimal digit characters of a natural number, most significant first:
the `List Char` underlying Python's `str(node_id)` (and Lean's
`toString node_id`). -/
def natDigits (n : Nat) : List Char := natDigitsAux (n + 1) n

theorem natDigitsAux_congr (n : Nat) : ∀ f1 f2 : Nat, n < f1 → n < f2 →
    natDigitsAux f1 n = natDigitsAux f2 n := by
  induction n using Nat.strong_induction_on with
  | _ n ih =>
    intro f1 f2 h1 h2
    match f1, f2 with
    | f1 + 1, f2 + 1 =>
      by_cases h10 : n < 10
      · simp [natDigitsAux, h10]
      · have hdiv : n / 10 < n := Nat.div_lt_self (by omega) (by omega)
        simp only [natDigitsAux, h10, if_false]
        rw [ih (n / 10) hdiv f1 f2 (by omega) (by omega)]

/-- One-step unfolding of `natDigits`. -/
theorem natDigits_step (n : Nat) : natDigits n =
    if n < 10 then [Nat.digitChar n]
    else natDigits (n / 10) ++ [Nat.digitChar (n % 10)] := by
  show natDigitsAux (n + 1) n = _
  by_cases h10 : n < 10
  · simp [natDigitsAux, h10]
  · have hdiv : n / 10 < n := Nat.div_lt_self (by omega) (by omega)
    simp only [natDigitsAux, h10, if_false]
    rw [natDigitsAux_congr (n / 10) n (n / 10 + 1) hdiv (by omega)]
    rfl

/-- Decimal rendering of a natural number as a string. -/
def natRepr (n : Nat) : String := ⟨natDigits n⟩

/-- The storage key `f'{node_id} {node_name}'` computed by `add_nncf_node`. -/
def mkNodeKey (i : Nat) (node_name : String) : String := natRepr i ++ " " ++ node_name

/-- Numeric value of a decimal digit character. -/
def digitVal (c : Char) : Nat := c.toNat - 48

theorem digitVal_digitChar : ∀ d, d < 10 → digitVal (Nat.digitChar d) = d := by decide

theorem digitChar_ne_space : ∀ d, d < 10 → Nat.digitChar d ≠ ' ' := by decide

/-- Left-to-right evaluation of a digit string. -/
def digitsVal (l : List Char) : Nat := l.foldl (fun a c => 10 * a + digitVal c) 0

theorem digitsVal_append_singleton (l : List Char) (c : Char) :
    digitsVal (l ++ [c]) = 10 * digitsVal l + digitVal c := by
  simp [digitsVal]

theorem digitsVal_natDigits (n : Nat) : digitsVal (natDigits n) = n := by
  induction n using Nat.strong_induction_on with
  | _ n ih =>
    rw [natDigits_step]
    by_cases h : n < 10
    · simp [h, digitsVal, digitVal_digitChar n h]
    · have hdiv : n / 10 < n := Nat.div_lt_self (by omega) (by omega)
      simp only [h, if_false]
      rw [digitsVal_append_singleton, ih (n / 10) hdiv,
        digitVal_digitChar _ (Nat.mod_lt n (by omega))]
      omega

theorem natDigits_inj {m n : Nat} (h : natDigits m = natDigits n) : m = n := by
  have := digitsVal_natDigits m
  rw [h, digitsVal_natDigits] at this
  omega

theorem space_not_mem_natDigits (n : Nat) : ' ' ∉ natDigits n := by
  induction n using Nat.strong_induction_on with
  | _ n ih =>
    rw [natDigits_step]
    by_cases h : n < 10
    · simp only [h, if_true, List.mem_singleton]
      exact fun hc => digitChar_ne_space n h hc.symm
    · have hdiv : n / 10 < n := Nat.div_lt_self (by omega) (by omega)
      simp only [h, if_false, List.mem_append, List.mem_singleton]
      rintro (hc | hc)
      · exact ih (n / 10) hdiv hc
      · exact digitChar_ne_space _ (Nat.mod_lt n (by omega)) hc.symm

theorem append_space_inj : ∀ (a1 a2 b1 b2 : List Char), ' ' ∉ a1 → ' ' ∉ a2 →
    a1 ++ ' ' :: b1 = a2 ++ ' ' :: b2 → a1 = a2 ∧ b1 = b2
  | [], [], b1, b2, _, _, h => by simpa using h
  | [], c :: a2, b1, b2, _, h2, h => by
    simp only [List.nil_append, List.cons_append, List.cons.injEq] at h
    exact absurd (h.1 ▸ List.mem_cons_self c a2) h2
  | c :: a1, [], b1, b2, h1, _, h => by
    simp only [List.nil_append, List.cons_append, List.cons.injEq] at h
    exact absurd (h.1 ▸ List.mem_cons_self c a1) h1
  | c :: a1, c' :: a2, b1, b2, h1, h2, h => by
    simp only [List.cons_append, List.cons.injEq] at h
    have := append_space_inj a1 a2 b1 b2 (fun hm => h1 (List.mem_cons_of_mem _ hm))
      (fun hm => h2 (List.mem_cons_of_mem _ hm)) h.2
    exact ⟨by rw [h.1, this.1], this.2⟩

theorem mkNodeKey_data (i : Nat) (s : String) :
    (mkNodeKey i s).data = natDigits i ++ ' ' :: s.data := by
  cases s with
  | mk d =>
    show (natDigits i ++ [' ']) ++ d = natDigits i ++ ' ' :: d
    simp

theorem mkNodeKey_inj {i1 i2 : Nat} {s1 s2 : String}
    (h : mkNodeKey i1 s1 = mkNodeKey i2 s2) : i1 = i2 ∧ s1 = s2 := by
  have hd : (mkNodeKey i1 s1).data = (mkNodeKey i2 s2).data := by rw [h]
  rw [mkNodeKey_data, mkNodeKey_data] at hd
  have := append_space_inj _ _ _ _ (space_not_mem_natDigits i1) (space_not_mem_natDigits i2) hd
  exact ⟨natDigits_inj this.1, String.ext this.2⟩

/-! ### The NNCFGraph state and its operations -/

/-- Error taxonomy of the module, as named by the specification.  In the
Python source these surface as `ValueError` (duplicate id, invalid edge),
`KeyError` (dict lookup of an absent node id), `networkx`'s
`NetworkXUnfeasible` (cycle during topological sort) and `RuntimeError`
(malformed boundary classification). -/
inductive NNCFError
  | DuplicateIdError
  | UnknownNodeError
  | InvalidTopologyError
  | CyclicGraphError
  | InvalidMatchError
deriving DecidableEq

/-- The mutable state of an `NNCFGraph` instance: the wrapped
`networkx.DiGraph` plus the three auxiliary dictionaries set up in
`NNCFGraph.__init__`. -/
structure NNCFGraph where
  nx_graph : NxDiGraph
  node_id_to_key_dict : List (Nat × String)
  input_nncf_nodes : List (Nat × NNCFNode)
  output_nncf_nodes : List (Nat × NNCFNode)
deriving DecidableEq

/-- A fresh `NNCFGraph` as produced by `NNCFGraph.__init__`. -/
def emptyNNCFGraph : NNCFGraph := ⟨⟨[], []⟩, [], [], []⟩

namespace NNCFGraph

/-- All node ids (`get_all_node_ids`, the keys of `_node_id_to_key_dict`
in insertion order). -/
def dictIds (g : NNCFGraph) : List Nat := g.node_id_to_key_dict.map Prod.fst

/-- Ids registered in the input-node index. -/
def inputIds (g : NNCFGraph) : List Nat := g.input_nncf_nodes.map Prod.fst

/-- Ids registered in the output-node index. -/
def outputIds (g : NNCFGraph) : List Nat := g.output_nncf_nodes.map Prod.fst

/-- Python's `max` over a nonempty id list (`max(self.get_all_node_ids())`);
the `[]` case is never consulted because `add_nncf_node` only takes the
max of a nonempty key view. -/
def maxNatList : List Nat → Nat
  | [] => 0
  | x :: xs => max x (maxNatList xs)

/-- The method `NNCFGraph.get_node_key_by_id` (`KeyError` ↦ `none`). -/
def get_node_key_by_id (g : NNCFGraph) (node_id : Nat) : Option String :=
  alistFind g.node_id_to_key_dict node_id

/-- The static method `_nx_node_to_nncf_node`: wrap an attrs record as
`NNCFNode(nx_node['id'], nx_node)`. -/
def nxNodeToNNCFNode (a : NodeAttrs) : NNCFNode := ⟨a.id, a⟩

/-- The method `NNCFGraph.get_node_by_key` (`KeyError` ↦ `none`). -/
def get_node_by_key (g : NNCFGraph) (key : String) : Option NNCFNode :=
  (g.nx_graph.lookupNode key).map nxNodeToNNCFNode

/-- The method `NNCFGraph.get_node_by_id`: key lookup followed by node
lookup. -/
def get_node_by_id (g : NNCFGraph) (node_id : Nat) : Option NNCFNode :=
  (g.get_node_key_by_id node_id).bind g.get_node_by_key

/-- The node id `add_nncf_node` assigns: the override when one is given,
else `max(self.get_all_node_ids()) + 1`, or `0` when the graph holds no
nodes yet. -/
def assignedNodeId (g : NNCFGraph) (node_id_override : Option Nat) : Nat :=
  match node_id_override with
  | some i => i
  | none => if g.dictIds = [] then 0 else maxNatList g.dictIds + 1

/-- The method `NNCFGraph.add_nncf_node`.  A `None` Python default for
`ignored_algorithms` is resolved to `[]` by the caller of this model.
The returned `Except` models the `ValueError` raised on a duplicate id;
the raise happens before any state is touched, which the functional
reading (error carries no new graph) mirrors. -/
def add_nncf_node (g : NNCFGraph) (node_name node_type : String)
    (node_metatype : OperatorMetatype) (module_attributes : Option String)
    (node_id_override : Option Nat) (ignored_algorithms : List String)
    (is_in_iteration_scope is_integer_input : Bool) :
    Except NNCFError (NNCFNode × NNCFGraph) :=
  let node_id := g.assignedNodeId node_id_override
  if node_id ∈ g.dictIds then .error .DuplicateIdError
  else
    let node_key := mkNodeKey node_id node_name
    let attrs : NodeAttrs :=
      { id := node_id, key := node_key, node_name := node_name, type := node_type,
        metatype := node_metatype, is_in_iteration_scope := is_in_iteration_scope,
        is_integer_input := is_integer_input, module_attributes := module_attributes,
        ignored_algos := ignored_algorithms }
    let node : NNCFNode := ⟨node_id, attrs⟩
    let g1 : NNCFGraph :=
      { g with node_id_to_key_dict := alistInsert g.node_id_to_key_dict node_id node_key,
               nx_graph := g.nx_graph.addNode node_key attrs }
    let g2 : NNCFGraph := if node_metatype.isInput then
        { g1 with input_nncf_nodes := alistInsert g1.input_nncf_nodes node_id node }
      else g1
    let g3 : NNCFGraph := if node_metatype.isOutput then
        { g2 with output_nncf_nodes := alistInsert g2.output_nncf_nodes node_id node }
      else g2
    .ok (node, g3)

/-- The method `NNCFGraph.add_edge_between_nncf_nodes`.  The two initial
dictionary subscripts raise `KeyError` on an absent id (mapped to
`UnknownNodeError`); then `err_reason` is assigned by four successive `if`
statements, a later assignment overwriting an earlier one, and a non-`None`
final value raises `ValueError` (the two membership checks mapped to
`UnknownNodeError`, the output-node/input-node checks to
`InvalidTopologyError`).  Only after all checks does `nx_graph.add_edge`
run, so an error leaves the graph untouched. -/
def add_edge_between_nncf_nodes (g : NNCFGraph) (from_node_id to_node_id : Nat)
    (tensor_shape : List Int) (input_port_id : Nat) (dtype : String) :
    Except NNCFError NNCFGraph :=
  match alistFind g.node_id_to_key_dict from_node_id with
  | none => .error .UnknownNodeError
  | some from_node_key =>
    match alistFind g.node_id_to_key_dict to_node_id with
    | none => .error .UnknownNodeError
    | some to_node_key =>
      let err0 : Option NNCFError := none
      let err1 := if (g.nx_graph.lookupNode from_node_key).isNone then
        some .UnknownNodeError else err0
      let err2 := if (g.nx_graph.lookupNode to_node_key).isNone then
        some .UnknownNodeError else err1
      let err3 := if from_node_id ∈ g.outputIds then
        some .InvalidTopologyError else err2
      let err4 := if to_node_id ∈ g.inputIds then
        some .InvalidTopologyError else err3
      match err4 with
      | some e => .error e
      | none =>
        let nx2 := g.nx_graph.addEdge from_node_key to_node_key
          ⟨tensor_shape, input_port_id, dtype⟩
        .ok { g with nx_graph := nx2 }

/-- Stable insertion into a port-sorted edge list (the element being
inserted goes after existing edges with the same port). -/
def insertByPort (e : NxEdge) : List NxEdge → List NxEdge
  | [] => [e]
  | e' :: es => if e.attrs.in_port < e'.attrs.in_port then e :: e' :: es
      else e' :: insertByPort e es

/-- Stable sort of an edge list by ascending `in_port`, the model of
Python's stable `sorted(..., key=lambda edge: attrs[IN_PORT])`. -/
def sortByPort (l : List NxEdge) : List NxEdge :=
  l.foldl (fun acc e => insertByPort e acc) []

/-- The method `NNCFGraph.get_input_edges`: the node's incoming edges sorted
ascending by `in_port` (the Python version returns them as an ordered
dict keyed by the `(from_key, to_key)` pair together with the attrs, which
the `NxEdge` records carry); `KeyError` on an unknown node id ↦ `none`. -/
def get_input_edges (g : NNCFGraph) (node : NNCFNode) : Option (List NxEdge) :=
  (alistFind g.node_id_to_key_dict node.node_id).map
    (fun k => sortByPort (g.nx_graph.inEdges k))

/-- The method `NNCFGraph.get_output_edges` (unordered, i.e. insertion
order); `KeyError` on an unknown node id ↦ `none`. -/
def get_output_edges (g : NNCFGraph) (node : NNCFNode) : Option (List NxEdge) :=
  (alistFind g.node_id_to_key_dict node.node_id).map
    (fun k => g.nx_graph.outEdges k)

end NNCFGraph

/-! ### Topological sort

`NNCFGraph.topological_sort` calls
`networkx.lexicographical_topological_sort(G, key = node id)`, which is
Kahn's algorithm driven by a min-heap: at every step the not-yet-emitted
node whose in-degree from not-yet-emitted nodes is zero and whose key
(here: the stored node id, ties broken by node insertion index) is minimal
is emitted next; if no such node exists while nodes remain, the graph has a
cycle and the sort raises. -/

namespace NxDiGraph

/-- Node id stored in a key's attribute record (`0` for an absent key; the
sort only ever consults keys present in the graph). -/
def nodeIdOfKey (g : NxDiGraph) (k : String) : Nat :=
  match g.lookupNode k with
  | some a => a.id
  | none => 0

/-- Does `v` have a predecessor among `remaining` (i.e. a nonzero
in-degree in the subgraph of not-yet-emitted nodes)? -/
def hasPredIn (g : NxDiGraph) (remaining : List String) (v : String) : Bool :=
  g.edges.any (fun e => remaining.contains e.src && e.dst == v)

/-- The not-yet-emitted nodes of zero remaining in-degree, in insertion
order. -/
def readyNodes (g : NxDiGraph) (remaining : List String) : List String :=
  remaining.filter (fun v => !(g.hasPredIn remaining v))

/-- First element minimizing `f`, i.e. the heap ordering `(key, insertion
index)` used by `lexicographical_topological_sort`. -/
def minByKeyFn (f : String → Nat) : List String → Option String
  | [] => none
  | x :: xs =>
    match minByKeyFn f xs with
    | none => some x
    | some y => if f x ≤ f y then some x else some y

/-- Kahn's algorithm with the lexicographic (min node id) tie-break; the
fuel argument is instantiated with the number of nodes, which always
suffices. -/
def kahnAux (g : NxDiGraph) : Nat → List String → Except NNCFError (List String)
  | 0, remaining => if remaining.isEmpty then .ok [] else .error .CyclicGraphError
  | fuel + 1, remaining =>
    if remaining.isEmpty then .ok []
    else
      match minByKeyFn (g.nodeIdOfKey) (g.readyNodes remaining) with
      | none => .error .CyclicGraphError
      | some v => (kahnAux g fuel (remaining.erase v)).map (fun l => v :: l)

end NxDiGraph

namespace NNCFGraph

/-- Wrap a node key of the graph as the `NNCFNode` produced by
`_nx_node_to_nncf_node(self._nx_graph.nodes[key])`; the fallback value is
never consulted because every key handed to it is present. -/
def nncfNodeOfKey (g : NNCFGraph) (k : String) : NNCFNode :=
  match g.nx_graph.lookupNode k with
  | some a => nxNodeToNNCFNode a
  | none => ⟨0, ⟨0, "", "", "", ⟨"", false, false⟩, false, false, none, []⟩⟩

/-- The method `NNCFGraph.topological_sort`. -/
def topological_sort (g : NNCFGraph) : Except NNCFError (List NNCFNode) :=
  (g.nx_graph.kahnAux (g.nx_graph.nodeKeys).length g.nx_graph.nodeKeys).map
    (fun l => l.map g.nncfNodeOfKey)

/-! ### Traversal

`traverse_graph` starts `_traverse_graph_recursive_helper` with `output = []`.
The helper invokes `traverse_function(curr_node, output)`; unless the
returned flag says "finished" it recurses into every successor (predecessor
for backward traversal).  The Python code threads the accumulated output
through the shared mutable list object (each recursive call sees the
mutations made by earlier calls and the helper's return value is that same
object), which the functional model renders by threading the state through
a left fold.  Python recursion is unbounded (and diverges on a cycle); the
fuel argument models the recursion depth, and the theorems below show that
`number of nodes` fuel is exact on an acyclic graph. -/

/-- The helper `_traverse_graph_recursive_helper`. -/
def traverseAux (g : NNCFGraph) {α : Type}
    (f : NNCFNode → List α → Bool × List α) (fwd : Bool) :
    Nat → String → List α → List α
  | 0, _, out => out
  | fuel + 1, k, out =>
    let r := f (g.nncfNodeOfKey k) out
    if r.1 then r.2
    else
      (if fwd then g.nx_graph.succKeys k else g.nx_graph.predKeys k).foldl
        (fun o k' => traverseAux g f fwd fuel k' o) r.2

/-- The method `NNCFGraph.traverse_graph` (with the start node given by its
key and the recursion depth made explicit). -/
def traverse_graph (g : NNCFGraph) {α : Type}
    (f : NNCFNode → List α → Bool × List α) (fwd : Bool)
    (fuel : Nat) (start : String) : List α :=
  traverseAux g f fwd fuel start []

end NNCFGraph

/-- Keys visited by a never-stopping traversal, in visit order: the start
node, then depth-first the visit lists of each neighbour in adjacency
order. -/
def visitSeq (g : NNCFGraph) (fwd : Bool) : Nat → String → List String
  | 0, _ => []
  | fuel + 1, k =>
    k :: (if fwd then g.nx_graph.succKeys k else g.nx_graph.predKeys k).flatMap
      (fun k' => visitSeq g fwd fuel k')

/-- All directed paths (as key lists) out of a node, following edges
forward (or backward), of at most `fuel` nodes. -/
def pathsFrom (g : NNCFGraph) (fwd : Bool) : Nat → String → List (List String)
  | 0, _ => []
  | fuel + 1, k =>
    [k] :: (if fwd then g.nx_graph.succKeys k else g.nx_graph.predKeys k).flatMap
      (fun k' => (pathsFrom g fwd fuel k').map (fun p => k :: p))

/-! ### Pattern boundary extraction

`_get_nncf_graph_pattern_input_output` uses `networkx.edge_boundary(G, S)`,
which for a directed graph yields the edges leaving `S`: the edges whose
source is in `S` and whose target is not. -/

/-- The class `NNCFGraphEdge` (producer node, consumer node, tensor shape —
`_get_nncf_graph_pattern_input_output` copies only the
`activation_shape` attribute into it). -/
structure NNCFGraphEdge where
  from_node : NNCFNode
  to_node : NNCFNode
  tensor_shape : List Int
deriving DecidableEq

/-- The class `NNCFGraphPatternIO` describing the boundary of a matched
subgraph. -/
structure NNCFGraphPatternIo where
  input_edges : List NNCFGraphEdge
  output_edges : List NNCFGraphEdge
  input_nodes : List NNCFNode
  output_nodes : List NNCFNode
deriving DecidableEq

/-- The function `networkx.edge_boundary(G, s)` for a directed graph:
the edges `(u, v)` with `u ∈ s` and `v ∉ s`, enumerated source-by-source
in the order of `s`. -/
def nxEdgeBoundary (g : NxDiGraph) (s : List String) : List NxEdge :=
  (s.flatMap (fun u => g.outEdges u)).filter (fun e => !(s.contains e.dst))

namespace NNCFGraph

/-- Turn a boundary `nx` edge into the `NNCFGraphEdge` appended by the
classification loop. -/
def mkPatternEdge (g : NNCFGraph) (e : NxEdge) : NNCFGraphEdge :=
  ⟨g.nncfNodeOfKey e.src, g.nncfNodeOfKey e.dst, e.attrs.activation_shape⟩

/-- The classification loop of `_get_nncf_graph_pattern_input_output`: an
edge whose source lies in the match is an output edge, otherwise an edge
whose target lies in the match is an input edge, and any other edge raises
`RuntimeError("Invalid graph expression supplied!")`. -/
def classifyBoundary (g : NNCFGraph) (m : List String) :
    List NxEdge → Except NNCFError (List NNCFGraphEdge × List NNCFGraphEdge)
  | [] => .ok ([], [])
  | e :: rest =>
    if m.contains e.src then
      (classifyBoundary g m rest).map (fun p => (p.1, g.mkPatternEdge e :: p.2))
    else if m.contains e.dst then
      (classifyBoundary g m rest).map (fun p => (g.mkPatternEdge e :: p.1, p.2))
    else .error .InvalidMatchError

/-- The method `_get_nncf_graph_pattern_input_output` ("structural"
boundary): the out-edge boundary of the match, the out-edge boundary of its
complement (= the in-edge boundary of the match), the nodes of the match
without successors/predecessors in the whole graph, and the classification
of the two boundaries into output/input edge lists. -/
def get_nncf_graph_pattern_input_output (g : NNCFGraph) (m : List String) :
    Except NNCFError NNCFGraphPatternIo :=
  let out_b := nxEdgeBoundary g.nx_graph m
  let complement := (g.nx_graph.nodeKeys).filter (fun k => !(m.contains k))
  let in_b := nxEdgeBoundary g.nx_graph complement
  let boundary := in_b ++ out_b
  let output_nodes := (m.filter (fun k => g.nx_graph.succKeys k = [])).map g.nncfNodeOfKey
  let input_nodes := (m.filter (fun k => g.nx_graph.predKeys k = [])).map g.nncfNodeOfKey
  (g.classifyBoundary m boundary).map
    (fun p => ⟨p.1, p.2, input_nodes, output_nodes⟩)

end NNCFGraph

/-! ### Structural equality

`NNCFGraph.__eq__` runs `networkx.is_isomorphic` with a categorical node
match on the attributes `id`, `key`, `module_attributes` and a categorical
edge match on `activation_shape`, `in_port` (each compared with default
`None` when absent): the graphs are equal iff some bijection between the
node sets preserves adjacency in both directions and matches those
attribute subsets. -/

/-- The categorical node match `iso.categorical_node_match(['id', 'key',
'module_attributes'], [None]*3)`. -/
def nodeMatchAttrs (a b : NodeAttrs) : Prop :=
  a.id = b.id ∧ a.key = b.key ∧ a.module_attributes = b.module_attributes

/-- The categorical edge match `iso.categorical_edge_match(
['activation_shape', 'in_port'], [None]*2)`. -/
def edgeMatchAttrs (a b : EdgeAttrs) : Prop :=
  a.activation_shape = b.activation_shape ∧ a.in_port = b.in_port

/-- Correspondence of the (at most one) edge stored per ordered node pair:
both pairs are unlinked, or both are linked by edges whose matched
attributes agree. -/
def optEdgeMatch : Option EdgeAttrs → Option EdgeAttrs → Prop
  | none, none => True
  | some a, some b => edgeMatchAttrs a b
  | _, _ => False

/-- The function `f` is an attribute-preserving isomorphism from `g1` to
`g2`. -/
def graphsIsoBy (g1 g2 : NxDiGraph) (f : String → String) : Prop :=
  (∀ k ∈ g1.nodeKeys, f k ∈ g2.nodeKeys) ∧
  (∀ k1 ∈ g1.nodeKeys, ∀ k2 ∈ g1.nodeKeys, f k1 = f k2 → k1 = k2) ∧
  (∀ k2 ∈ g2.nodeKeys, ∃ k1 ∈ g1.nodeKeys, f k1 = k2) ∧
  (∀ k ∈ g1.nodeKeys, ∀ a1, g1.lookupNode k = some a1 →
    ∃ a2, g2.lookupNode (f k) = some a2 ∧ nodeMatchAttrs a1 a2) ∧
  (∀ u ∈ g1.nodeKeys, ∀ v ∈ g1.nodeKeys,
    optEdgeMatch (g1.lookupEdge u v) (g2.lookupEdge (f u) (f v)))

/-- The method `NNCFGraph.__eq__` (`networkx.is_isomorphic` with the two
categorical matchers above). -/
def nncfGraphEq (g1 g2 : NNCFGraph) : Prop :=
  ∃ f, graphsIsoBy g1.nx_graph g2.nx_graph f

/-! ### Association-list lemmas -/

theorem alistFind_eq_none {α β : Type} [DecidableEq α] {d : List (α × β)} {k : α}
    (h : k ∉ d.map Prod.fst) : alistFind d k = none := by
  induction d with
  | nil => rfl
  | cons p d ih =>
    simp only [List.map_cons, List.mem_cons, not_or] at h
    have hne : ¬ p.1 = k := fun hc => h.1 hc.symm
    simp only [alistFind, if_neg hne]
    exact ih h.2

theorem alistFind_mem {α β : Type} [DecidableEq α] {d : List (α × β)} {k : α} {v : β}
    (h : alistFind d k = some v) : (k, v) ∈ d := by
  induction d with
  | nil => simp [alistFind] at h
  | cons p d ih =>
    simp only [alistFind] at h
    split at h
    · rename_i he
      cases h
      simp only [List.mem_cons]
      left
      rw [← he]
    · exact List.mem_cons_of_mem _ (ih h)

theorem alistFind_mem_keys {α β : Type} [DecidableEq α] {d : List (α × β)} {k : α} {v : β}
    (h : alistFind d k = some v) : k ∈ d.map Prod.fst := by
  have := alistFind_mem h
  exact List.mem_map_of_mem Prod.fst this

theorem alistFind_append {α β : Type} [DecidableEq α] (d1 d2 : List (α × β)) (k : α) :
    alistFind (d1 ++ d2) k =
      match alistFind d1 k with
      | some v => some v
      | none => alistFind d2 k := by
  induction d1 with
  | nil => simp [alistFind]
  | cons p d ih =>
    simp only [List.cons_append, alistFind]
    split <;> simp [ih]

theorem alistFind_append_left {α β : Type} [DecidableEq α] {d1 : List (α × β)}
    {k : α} {v : β} (d2 : List (α × β)) (h : alistFind d1 k = some v) :
    alistFind (d1 ++ d2) k = some v := by
  rw [alistFind_append, h]

theorem alistFind_append_right {α β : Type} [DecidableEq α] {d1 : List (α × β)}
    {k : α} (d2 : List (α × β)) (h : alistFind d1 k = none) :
    alistFind (d1 ++ d2) k = alistFind d2 k := by
  rw [alistFind_append, h]

theorem alistInsert_not_mem {α β : Type} [DecidableEq α] {d : List (α × β)} {k : α}
    (v : β) (h : k ∉ d.map Prod.fst) : alistInsert d k v = d ++ [(k, v)] := by
  induction d with
  | nil => rfl
  | cons p d ih =>
    simp only [List.map_cons, List.mem_cons, not_or] at h
    have hne : ¬ p.1 = k := fun hc => h.1 hc.symm
    simp only [alistInsert, if_neg hne, List.cons_append, List.cons.injEq, true_and]
    exact ih h.2

theorem alistFind_insert_self {α β : Type} [DecidableEq α] (d : List (α × β)) (k : α)
    (v : β) : alistFind (alistInsert d k v) k = some v := by
  induction d with
  | nil => simp [alistInsert, alistFind]
  | cons p d ih =>
    simp only [alistInsert]
    split
    · simp [alistFind]
    · rename_i hne
      simp only [alistFind, if_neg hne]
      exact ih

theorem mem_keys_of_mem {α β : Type} {d : List (α × β)} {p : α × β} (h : p ∈ d) :
    p.1 ∈ d.map Prod.fst :=
  List.mem_map_of_mem Prod.fst h

/-! ### The reachable-state invariant -/

/-- The consistency invariant every graph reachable through the public
construction API satisfies: node keys and node ids are duplicate-free, the
`node_id → key` dictionary and the `networkx` node store describe each other
(with the key of a node always being `f'{id} {name}'`), every edge endpoint
is a stored node, the edge store holds at most one edge per ordered pair,
the input/output indices record the key of the indexed node under its id,
and no input-index node has an incoming edge, no output-index node an
outgoing one. -/
structure WellFormed (g : NNCFGraph) : Prop where
  keys_nodup : g.nx_graph.nodeKeys.Nodup
  ids_nodup : g.dictIds.Nodup
  dict_to_node : ∀ p ∈ g.node_id_to_key_dict,
    ∃ a, g.nx_graph.lookupNode p.2 = some a ∧ a.id = p.1 ∧ a.key = p.2
  node_to_dict : ∀ q ∈ g.nx_graph.nodes, (q.2.id, q.1) ∈ g.node_id_to_key_dict ∧
    q.2.key = q.1 ∧ q.1 = mkNodeKey q.2.id q.2.node_name
  edge_ends : ∀ e ∈ g.nx_graph.edges,
    e.src ∈ g.nx_graph.nodeKeys ∧ e.dst ∈ g.nx_graph.nodeKeys
  edge_pairs_nodup : (g.nx_graph.edges.map (fun e => (e.src, e.dst))).Nodup
  input_sound : ∀ p ∈ g.input_nncf_nodes,
    alistFind g.node_id_to_key_dict p.1 = some p.2.data.key
  output_sound : ∀ p ∈ g.output_nncf_nodes,
    alistFind g.node_id_to_key_dict p.1 = some p.2.data.key
  input_no_incoming : ∀ p ∈ g.input_nncf_nodes, ∀ e ∈ g.nx_graph.edges,
    e.dst ≠ p.2.data.key
  output_no_outgoing : ∀ p ∈ g.output_nncf_nodes, ∀ e ∈ g.nx_graph.edges,
    e.src ≠ p.2.data.key

/-- The graphs reachable by constructing an empty `NNCFGraph` and performing
any sequence of successful `add_nncf_node` / `add_edge_between_nncf_nodes`
calls. -/
inductive Reachable : NNCFGraph → Prop
  | empty : Reachable emptyNNCFGraph
  | addNode (g : NNCFGraph) (nm tp : String) (mt : OperatorMetatype)
      (ma : Option String) (ov : Option Nat) (ia : List String) (iis iii : Bool)
      (n : NNCFNode) (g' : NNCFGraph) : Reachable g →
      NNCFGraph.add_nncf_node g nm tp mt ma ov ia iis iii = .ok (n, g') →
      Reachable g'
  | addEdge (g : NNCFGraph) (fid tid : Nat) (shape : List Int) (port : Nat)
      (dt : String) (g' : NNCFGraph) : Reachable g →
      NNCFGraph.add_edge_between_nncf_nodes g fid tid shape port dt = .ok g' →
      Reachable g'

/-- Shape of the state after a successful `add_nncf_node` call: the new id
was free, the returned node carries the freshly built attribute record, the
dictionary and node store gain the new entry, the edges are untouched, and
the input/output index gains the node iff its metatype is in the respective
registry set. -/
theorem add_nncf_node_ok_struct {g : NNCFGraph} {nm tp : String}
    {mt : OperatorMetatype} {ma : Option String} {ov : Option Nat}
    {ia : List String} {iis iii : Bool} {n : NNCFNode} {g' : NNCFGraph}
    (h : NNCFGraph.add_nncf_node g nm tp mt ma ov ia iis iii = .ok (n, g')) :
    n.node_id = g.assignedNodeId ov ∧ n.node_id ∉ g.dictIds ∧
    n.data = { id := n.node_id, key := mkNodeKey n.node_id nm, node_name := nm,
               type := tp, metatype := mt, is_in_iteration_scope := iis,
               is_integer_input := iii, module_attributes := ma,
               ignored_algos := ia } ∧
    g'.node_id_to_key_dict =
      alistInsert g.node_id_to_key_dict n.node_id (mkNodeKey n.node_id nm) ∧
    g'.nx_graph = g.nx_graph.addNode (mkNodeKey n.node_id nm) n.data ∧
    g'.input_nncf_nodes = (if mt.isInput = true then
      alistInsert g.input_nncf_nodes n.node_id n else g.input_nncf_nodes) ∧
    g'.output_nncf_nodes = (if mt.isOutput = true then
      alistInsert g.output_nncf_nodes n.node_id n else g.output_nncf_nodes) := by
  by_cases hc : g.assignedNodeId ov ∈ g.dictIds
  · simp [NNCFGraph.add_nncf_node, hc] at h
  · simp only [NNCFGraph.add_nncf_node, hc, if_false, Except.ok.injEq,
      Prod.mk.injEq] at h
    obtain ⟨hn, hg⟩ := h
    subst hn
    subst hg
    cases hmi : mt.isInput <;> cases hmo : mt.isOutput <;>
      simp [hmi, hmo, hc]

/-- A key built from a fresh node id cannot collide with a stored key:
every stored key is `f'{id} {name}'` for its own (taken) id, and the id is
recoverable from the key (the digits before the first space). -/
theorem newKey_not_mem {g : NNCFGraph} (hw : WellFormed g) {i : Nat} {nm : String}
    (hi : i ∉ g.dictIds) : mkNodeKey i nm ∉ g.nx_graph.nodeKeys := by
  intro hmem
  obtain ⟨q, hq, hqk⟩ := List.mem_map.1 hmem
  obtain ⟨hdictm, _, hform⟩ := hw.node_to_dict q hq
  have hkk : mkNodeKey i nm = mkNodeKey q.2.id q.2.node_name := by rw [← hqk, ← hform]
  have hii : i = q.2.id := (mkNodeKey_inj hkk).1
  exact hi (hii ▸ mem_keys_of_mem hdictm)

theorem wellFormed_addNode {g : NNCFGraph} {nm tp : String} {mt : OperatorMetatype}
    {ma : Option String} {ov : Option Nat} {ia : List String} {iis iii : Bool}
    {n : NNCFNode} {g' : NNCFGraph} (hw : WellFormed g)
    (h : NNCFGraph.add_nncf_node g nm tp mt ma ov ia iis iii = .ok (n, g')) :
    WellFormed g' := by
  obtain ⟨-, hfresh, hdata, hdict, hnx, hinp, hout⟩ := add_nncf_node_ok_struct h
  have hdkey : n.data.key = mkNodeKey n.node_id nm := by rw [hdata]
  have hdid : n.data.id = n.node_id := by rw [hdata]
  have hdnm : n.data.node_name = nm := by rw [hdata]
  have hkfresh : mkNodeKey n.node_id nm ∉ g.nx_graph.nodeKeys := newKey_not_mem hw hfresh
  have hdict' : g'.node_id_to_key_dict =
      g.node_id_to_key_dict ++ [(n.node_id, mkNodeKey n.node_id nm)] := by
    rw [hdict]; exact alistInsert_not_mem _ hfresh
  have hnodes' : g'.nx_graph.nodes =
      g.nx_graph.nodes ++ [(mkNodeKey n.node_id nm, n.data)] := by
    rw [hnx]
    show alistInsert g.nx_graph.nodes (mkNodeKey n.node_id nm) n.data = _
    exact alistInsert_not_mem _ hkfresh
  have hedges' : g'.nx_graph.edges = g.nx_graph.edges := by
    rw [hnx]
    rfl
  have hkeys' : g'.nx_graph.nodeKeys =
      g.nx_graph.nodeKeys ++ [mkNodeKey n.node_id nm] := by
    unfold NxDiGraph.nodeKeys
    rw [hnodes']
    simp
  have hids' : g'.dictIds = g.dictIds ++ [n.node_id] := by
    unfold NNCFGraph.dictIds
    rw [hdict']
    simp
  have hinsub : ∀ p ∈ g.input_nncf_nodes, p.1 ∈ g.dictIds := fun p hp =>
    alistFind_mem_keys (hw.input_sound p hp)
  have houtsub : ∀ p ∈ g.output_nncf_nodes, p.1 ∈ g.dictIds := fun p hp =>
    alistFind_mem_keys (hw.output_sound p hp)
  have hinmem : ∀ p ∈ g'.input_nncf_nodes,
      p ∈ g.input_nncf_nodes ∨ p = (n.node_id, n) := by
    intro p hp
    rw [hinp] at hp
    rcases instDecidableEqBool mt.isInput true with hb | hb
    · rw [if_neg hb] at hp; exact Or.inl hp
    · rw [if_pos hb] at hp
      have hifr : n.node_id ∉ g.input_nncf_nodes.map Prod.fst := by
        intro hmem
        obtain ⟨q, hq, hqe⟩ := List.mem_map.1 hmem
        exact hfresh (hqe ▸ hinsub q hq)
      rw [alistInsert_not_mem _ hifr] at hp
      rcases List.mem_append.1 hp with hp | hp
      · exact Or.inl hp
      · exact Or.inr (List.mem_singleton.1 hp)
  have houtmem : ∀ p ∈ g'.output_nncf_nodes,
      p ∈ g.output_nncf_nodes ∨ p = (n.node_id, n) := by
    intro p hp
    rw [hout] at hp
    rcases instDecidableEqBool mt.isOutput true with hb | hb
    · rw [if_neg hb] at hp; exact Or.inl hp
    · rw [if_pos hb] at hp
      have hofr : n.node_id ∉ g.output_nncf_nodes.map Prod.fst := by
        intro hmem
        obtain ⟨q, hq, hqe⟩ := List.mem_map.1 hmem
        exact hfresh (hqe ▸ houtsub q hq)
      rw [alistInsert_not_mem _ hofr] at hp
      rcases List.mem_append.1 hp with hp | hp
      · exact Or.inl hp
      · exact Or.inr (List.mem_singleton.1 hp)
  have hfindnew : alistFind g'.node_id_to_key_dict n.node_id =
      some (mkNodeKey n.node_id nm) := by
    rw [hdict', alistFind_append_right _ (alistFind_eq_none hfresh)]
    simp [alistFind]
  refine ⟨?_, ?_, ?_, ?_, ?_, ?_, ?_, ?_, ?_, ?_⟩
  · rw [hkeys']
    simp only [List.nodup_append, List.nodup_singleton, true_and,
      List.disjoint_singleton]
    exact ⟨hw.keys_nodup, hkfresh⟩
  · rw [hids']
    simp only [List.nodup_append, List.nodup_singleton, true_and,
      List.disjoint_singleton]
    exact ⟨hw.ids_nodup, hfresh⟩
  · intro p hp
    rw [hdict'] at hp
    rcases List.mem_append.1 hp with hp | hp
    · obtain ⟨a, ha, hai, hak⟩ := hw.dict_to_node p hp
      refine ⟨a, ?_, hai, hak⟩
      show alistFind g'.nx_graph.nodes p.2 = some a
      rw [hnodes']
      exact alistFind_append_left _ ha
    · rw [List.mem_singleton.1 hp]
      refine ⟨n.data, ?_, hdid, hdkey⟩
      show alistFind g'.nx_graph.nodes (mkNodeKey n.node_id nm) = some n.data
      rw [hnodes', alistFind_append_right _ (alistFind_eq_none hkfresh)]
      simp [alistFind]
  · intro q hq
    rw [hnodes'] at hq
    rcases List.mem_append.1 hq with hq | hq
    · obtain ⟨h1, h2, h3⟩ := hw.node_to_dict q hq
      exact ⟨by rw [hdict']; exact List.mem_append_left _ h1, h2, h3⟩
    · rw [List.mem_singleton.1 hq]
      refine ⟨?_, hdkey, ?_⟩
      · rw [hdict', hdid]
        exact List.mem_append_right _ (List.mem_singleton.2 rfl)
      · rw [hdid, hdnm]
  · intro e he
    rw [hedges'] at he
    obtain ⟨h1, h2⟩ := hw.edge_ends e he
    rw [hkeys']
    exact ⟨List.mem_append_left _ h1, List.mem_append_left _ h2⟩
  · rw [hedges']
    exact hw.edge_pairs_nodup
  · intro p hp
    rcases hinmem p hp with hp' | hp'
    · rw [hdict']
      exact alistFind_append_left _ (hw.input_sound p hp')
    · rw [hp', hdkey]
      exact hfindnew
  · intro p hp
    rcases houtmem p hp with hp' | hp'
    · rw [hdict']
      exact alistFind_append_left _ (hw.output_sound p hp')
    · rw [hp', hdkey]
      exact hfindnew
  · intro p hp e he
    rw [hedges'] at he
    rcases hinmem p hp with hp' | hp'
    · exact hw.input_no_incoming p hp' e he
    · rw [hp', hdkey]
      intro hc
      exact hkfresh (hc ▸ (hw.edge_ends e he).2)
  · intro p hp e he
    rw [hedges'] at he
    rcases houtmem p hp with hp' | hp'
    · exact hw.output_no_outgoing p hp' e he
    · rw [hp', hdkey]
      intro hc
      exact hkfresh (hc ▸ (hw.edge_ends e he).1)

theorem mem_edgeUpdate {es : List NxEdge} {u v : String} {a : EdgeAttrs} {e' : NxEdge}
    (h : e' ∈ NxDiGraph.edgeUpdate es u v a) : e' ∈ es ∨ e' = ⟨u, v, a⟩ := by
  induction es with
  | nil =>
    simp only [NxDiGraph.edgeUpdate, List.mem_singleton] at h
    exact Or.inr h
  | cons e es ih =>
    simp only [NxDiGraph.edgeUpdate] at h
    split at h
    · rcases List.mem_cons.1 h with h1 | h1
      · exact Or.inr h1
      · exact Or.inl (List.mem_cons_of_mem _ h1)
    · rcases List.mem_cons.1 h with h1 | h1
      · exact Or.inl (h1 ▸ List.mem_cons_self e es)
      · rcases ih h1 with h2 | h2
        · exact Or.inl (List.mem_cons_of_mem _ h2)
        · exact Or.inr h2

theorem edgeUpdate_pairs_nodup {es : List NxEdge} {u v : String} (a : EdgeAttrs)
    (h : (es.map (fun e => (e.src, e.dst))).Nodup) :
    ((NxDiGraph.edgeUpdate es u v a).map (fun e => (e.src, e.dst))).Nodup := by
  induction es with
  | nil => simp [NxDiGraph.edgeUpdate]
  | cons e es ih =>
    simp only [List.map_cons, List.nodup_cons] at h
    simp only [NxDiGraph.edgeUpdate]
    split
    · rename_i hsd
      simp only [List.map_cons, List.nodup_cons]
      exact ⟨by rw [← hsd.1, ← hsd.2]; exact h.1, h.2⟩
    · rename_i hsd
      simp only [List.map_cons, List.nodup_cons]
      refine ⟨?_, ih h.2⟩
      intro hc
      obtain ⟨e2, he2, he2e⟩ := List.mem_map.1 hc
      rcases mem_edgeUpdate he2 with h2 | h2
      · exact h.1 (List.mem_map.2 ⟨e2, h2, he2e⟩)
      · rw [h2] at he2e
        exact hsd ⟨congrArg Prod.fst he2e.symm, congrArg Prod.snd he2e.symm⟩

theorem edgeUpdate_eq_append {es : List NxEdge} {u v : String} (a : EdgeAttrs)
    (h : ∀ e ∈ es, ¬(e.src = u ∧ e.dst = v)) :
    NxDiGraph.edgeUpdate es u v a = es ++ [⟨u, v, a⟩] := by
  induction es with
  | nil => rfl
  | cons e es ih =>
    simp only [NxDiGraph.edgeUpdate, if_neg (h e (List.mem_cons_self e es)),
      List.cons_append, List.cons.injEq, true_and]
    exact ih (fun e' he' => h e' (List.mem_cons_of_mem _ he'))

/-- Shape of the state after a successful `add_edge_between_nncf_nodes` call:
both endpoint ids resolved to stored keys, the source was not a registered
output node, the target not a registered input node, and only the `networkx`
edge store changed (by `add_edge`). -/
theorem add_edge_ok_struct {g : NNCFGraph} {fid tid : Nat} {shape : List Int}
    {port : Nat} {dt : String} {g' : NNCFGraph}
    (h : NNCFGraph.add_edge_between_nncf_nodes g fid tid shape port dt = .ok g') :
    ∃ fk tk, alistFind g.node_id_to_key_dict fid = some fk ∧
      alistFind g.node_id_to_key_dict tid = some tk ∧
      (g.nx_graph.lookupNode fk).isSome ∧ (g.nx_graph.lookupNode tk).isSome ∧
      fid ∉ g.outputIds ∧ tid ∉ g.inputIds ∧
      g'.nx_graph = g.nx_graph.addEdge fk tk ⟨shape, port, dt⟩ ∧
      g'.node_id_to_key_dict = g.node_id_to_key_dict ∧
      g'.input_nncf_nodes = g.input_nncf_nodes ∧
      g'.output_nncf_nodes = g.output_nncf_nodes := by
  unfold NNCFGraph.add_edge_between_nncf_nodes at h
  cases hf : alistFind g.node_id_to_key_dict fid with
  | none => rw [hf] at h; exact absurd h (by simp)
  | some fk =>
    cases ht : alistFind g.node_id_to_key_dict tid with
    | none => rw [hf, ht] at h; exact absurd h (by simp)
    | some tk =>
      rw [hf, ht] at h
      simp only [] at h
      by_cases h4 : tid ∈ g.inputIds
      · rw [if_pos h4] at h; exact absurd h (by simp)
      · rw [if_neg h4] at h
        by_cases h3 : fid ∈ g.outputIds
        · rw [if_pos h3] at h; exact absurd h (by simp)
        · rw [if_neg h3] at h
          by_cases h2 : (g.nx_graph.lookupNode tk).isNone
          · rw [if_pos h2] at h; exact absurd h (by simp)
          · rw [if_neg h2] at h
            by_cases h1 : (g.nx_graph.lookupNode fk).isNone
            · rw [if_pos h1] at h; exact absurd h (by simp)
            · rw [if_neg h1] at h
              simp only [Except.ok.injEq] at h
              have hs1 : (g.nx_graph.lookupNode fk).isSome = true := by
                cases hl : g.nx_graph.lookupNode fk with
                | none => exact absurd (by rw [hl]; rfl) h1
                | some a => rfl
              have hs2 : (g.nx_graph.lookupNode tk).isSome = true := by
                cases hl : g.nx_graph.lookupNode tk with
                | none => exact absurd (by rw [hl]; rfl) h2
                | some a => rfl
              exact ⟨fk, tk, rfl, rfl, hs1, hs2, h3, h4,
                by rw [← h], by rw [← h], by rw [← h], by rw [← h]⟩

/-- If two dictionary entries resolve to the same key, the ids coincide
(the stored node of that key determines the id). -/
theorem dict_id_unique {g : NNCFGraph} (hw : WellFormed g) {i1 i2 : Nat} {k : String}
    (h1 : alistFind g.node_id_to_key_dict i1 = some k)
    (h2 : alistFind g.node_id_to_key_dict i2 = some k) : i1 = i2 := by
  obtain ⟨a, ha, hai, -⟩ := hw.dict_to_node _ (alistFind_mem h1)
  obtain ⟨a', ha', hai', -⟩ := hw.dict_to_node _ (alistFind_mem h2)
  rw [ha] at ha'
  cases ha'
  exact hai.symm.trans hai' 

theorem wellFormed_addEdge {g : NNCFGraph} {fid tid : Nat} {shape : List Int}
    {port : Nat} {dt : String} {g' : NNCFGraph} (hw : WellFormed g)
    (h : NNCFGraph.add_edge_between_nncf_nodes g fid tid shape port dt = .ok g') :
    WellFormed g' := by
  obtain ⟨fk, tk, hf, ht, hfs, hts, hno, hni, hnx, hd, hi, ho⟩ := add_edge_ok_struct h
  have hedges' : g'.nx_graph.edges =
      NxDiGraph.edgeUpdate g.nx_graph.edges fk tk ⟨shape, port, dt⟩ := by
    rw [hnx]
    rfl
  have hnodes' : g'.nx_graph.nodes = g.nx_graph.nodes := by
    rw [hnx]
    rfl
  have hkeys' : g'.nx_graph.nodeKeys = g.nx_graph.nodeKeys := by
    unfold NxDiGraph.nodeKeys
    rw [hnodes']
  have hfkm : fk ∈ g.nx_graph.nodeKeys := by
    obtain ⟨a, ha⟩ := Option.isSome_iff_exists.1 hfs
    exact alistFind_mem_keys ha
  have htkm : tk ∈ g.nx_graph.nodeKeys := by
    obtain ⟨a, ha⟩ := Option.isSome_iff_exists.1 hts
    exact alistFind_mem_keys ha
  have hmemE : ∀ e ∈ g'.nx_graph.edges,
      e ∈ g.nx_graph.edges ∨ e = ⟨fk, tk, ⟨shape, port, dt⟩⟩ := by
    intro e he
    rw [hedges'] at he
    exact mem_edgeUpdate he
  refine ⟨?_, ?_, ?_, ?_, ?_, ?_, ?_, ?_, ?_, ?_⟩
  · rw [hkeys']; exact hw.keys_nodup
  · unfold NNCFGraph.dictIds; rw [hd]; exact hw.ids_nodup
  · intro p hp
    rw [hd] at hp
    obtain ⟨a, ha, hai, hak⟩ := hw.dict_to_node p hp
    refine ⟨a, ?_, hai, hak⟩
    show alistFind g'.nx_graph.nodes p.2 = some a
    rw [hnodes']
    exact ha
  · intro q hq
    rw [hnodes'] at hq
    obtain ⟨h1, h2, h3⟩ := hw.node_to_dict q hq
    rw [hd]
    exact ⟨h1, h2, h3⟩
  · intro e he
    rw [hkeys']
    rcases hmemE e he with h1 | h1
    · exact hw.edge_ends e h1
    · rw [h1]
      exact ⟨hfkm, htkm⟩
  · rw [hedges']
    exact edgeUpdate_pairs_nodup _ hw.edge_pairs_nodup
  · intro p hp
    rw [hi] at hp
    rw [hd]
    exact hw.input_sound p hp
  · intro p hp
    rw [ho] at hp
    rw [hd]
    exact hw.output_sound p hp
  · intro p hp e he
    rw [hi] at hp
    rcases hmemE e he with h1 | h1
    · exact hw.input_no_incoming p hp e h1
    · rw [h1]
      intro hc
      have hpk : alistFind g.node_id_to_key_dict p.1 = some tk := by
        have his := hw.input_sound p hp
        rw [← hc] at his
        exact his
      have : p.1 = tid := dict_id_unique hw hpk ht
      exact hni (this ▸ mem_keys_of_mem hp)
  · intro p hp e he
    rw [ho] at hp
    rcases hmemE e he with h1 | h1
    · exact hw.output_no_outgoing p hp e h1
    · rw [h1]
      intro hc
      have hpk : alistFind g.node_id_to_key_dict p.1 = some fk := by
        have his := hw.output_sound p hp
        rw [← hc] at his
        exact his
      have : p.1 = fid := dict_id_unique hw hpk hf
      exact hno (this ▸ mem_keys_of_mem hp)

theorem wellFormed_empty : WellFormed emptyNNCFGraph := by
  refine ⟨?_, ?_, ?_, ?_, ?_, ?_, ?_, ?_, ?_, ?_⟩ <;>
    simp [emptyNNCFGraph, NxDiGraph.nodeKeys, NNCFGraph.dictIds]

/-- Every graph reachable through the construction API is well-formed. -/
theorem reachable_wellFormed {g : NNCFGraph} (h : Reachable g) : WellFormed g := by
  induction h with
  | empty => exact wellFormed_empty
  | addNode g nm tp mt ma ov ia iis iii n g' _ hok ih => exact wellFormed_addNode ih hok
  | addEdge g fid tid shape port dt g' _ hok ih => exact wellFormed_addEdge ih hok

/-! ### Concrete graphs used to witness the theorems

The three-node scenario of the specification: an input node `0 in`, a
computation node `1 conv`, an output node `2 out`, with edges `0 → 1` and
`1 → 2` on port `0`. -/

/-- A metatype outside both registry sets. -/
def mtPlain : OperatorMetatype := ⟨"conv", false, false⟩

/-- A metatype in the input registry set. -/
def mtIn : OperatorMetatype := ⟨"nncf_model_input", true, false⟩

/-- A metatype in the output registry set. -/
def mtOut : OperatorMetatype := ⟨"nncf_model_output", false, true⟩

/-- Unwrap a node insertion known to succeed (identity on failure). -/
def stepNode (g : NNCFGraph) (nm tp : String) (mt : OperatorMetatype) :
    NNCFNode × NNCFGraph :=
  match NNCFGraph.add_nncf_node g nm tp mt none none [] false false with
  | .ok p => p
  | .error _ => (⟨0, ⟨0, "", "", "", mtPlain, false, false, none, []⟩⟩, g)

/-- Unwrap an edge insertion known to succeed (identity on failure). -/
def stepEdge (g : NNCFGraph) (fid tid port : Nat) : NNCFGraph :=
  match NNCFGraph.add_edge_between_nncf_nodes g fid tid [1] port "float" with
  | .ok g' => g'
  | .error _ => g

def cgA0 : NNCFGraph := (stepNode emptyNNCFGraph "in" "nncf_model_input" mtIn).2

def cgA1 : NNCFGraph := (stepNode cgA0 "conv" "conv2d" mtPlain).2

def cgA2 : NNCFGraph := (stepNode cgA1 "out" "nncf_model_output" mtOut).2

def cgA3 : NNCFGraph := stepEdge cgA2 0 1 0

def cgA : NNCFGraph := stepEdge cgA3 1 2 0

theorem reachable_cgA2 : Reachable cgA2 :=
  Reachable.addNode cgA1 "out" "nncf_model_output" mtOut none none [] false false
    (stepNode cgA1 "out" "nncf_model_output" mtOut).1 cgA2
    (Reachable.addNode cgA0 "conv" "conv2d" mtPlain none none [] false false
      (stepNode cgA0 "conv" "conv2d" mtPlain).1 cgA1
      (Reachable.addNode emptyNNCFGraph "in" "nncf_model_input" mtIn none none []
        false false (stepNode emptyNNCFGraph "in" "nncf_model_input" mtIn).1 cgA0
        Reachable.empty rfl) rfl) rfl

theorem reachable_cgA : Reachable cgA :=
  Reachable.addEdge cgA3 1 2 [1] 0 "float" cgA
    (Reachable.addEdge cgA2 0 1 [1] 0 "float" cgA3 reachable_cgA2 rfl) rfl

theorem alistFind_isSome_of_mem_keys {α β : Type} [DecidableEq α] {d : List (α × β)}
    {k : α} (h : k ∈ d.map Prod.fst) : (alistFind d k).isSome = true := by
  induction d with
  | nil => simp at h
  | cons p d ih =>
    by_cases hp : p.1 = k
    · simp [alistFind, hp]
    · simp only [List.map_cons, List.mem_cons] at h
      rcases h with h | h

      · exact absurd h.symm hp
      · simp only [alistFind, if_neg hp]
        exact ih h

theorem maxNatList_le {l : List Nat} {j : Nat} (h : j ∈ l) :
    j ≤ NNCFGraph.maxNatList l := by
  induction l with
  | nil => simp at h
  | cons x xs ih =>
    rcases List.mem_cons.1 h with h | h
    · rw [h]
      exact Nat.le_max_left _ _
    · exact Nat.le_trans (ih h) (Nat.le_max_right _ _)

/-- Without an override, the assigned id is strictly above every existing id
(hence fresh). -/
theorem assignedNodeId_none_gt (g : NNCFGraph) :
    ∀ j ∈ g.dictIds, j < g.assignedNodeId none := by
  intro j hj
  unfold NNCFGraph.assignedNodeId
  have hne : g.dictIds ≠ [] := by
    intro hc
    rw [hc] at hj
    simp at hj
  rw [if_neg hne]
  exact Nat.lt_succ_of_le (maxNatList_le hj)

theorem assignedNodeId_none_fresh (g : NNCFGraph) : g.assignedNodeId none ∉ g.dictIds :=
  fun hc => absurd (assignedNodeId_none_gt g _ hc) (Nat.lt_irrefl _)

/-! ### C10 — insertion/lookup round trip -/

/-- C10: for every node `n` returned by a successful `add_nncf_node` call,
`get_node_by_id(n.node_id)` returns a node with the same `node_id`,
`node_name`, `node_type` and `metatype` as `n`, and
`get_node_key_by_id(n.node_id)` returns the string made of the decimal
node id, a single space, and the node name. -/
theorem C10_insert_lookup_round_trip (g : NNCFGraph) (nm tp : String)
    (mt : OperatorMetatype) (ma : Option String) (ov : Option Nat)
    (ia : List String) (iis iii : Bool) (n : NNCFNode) (g' : NNCFGraph)
    (h : NNCFGraph.add_nncf_node g nm tp mt ma ov ia iis iii = .ok (n, g')) :
    g'.get_node_key_by_id n.node_id =
      some (natRepr n.node_id ++ " " ++ n.data.node_name) ∧
    ∃ m, g'.get_node_by_id n.node_id = some m ∧ m.node_id = n.node_id ∧
      m.data.node_name = n.data.node_name ∧ m.data.type = n.data.type ∧
      m.data.metatype = n.data.metatype := by
  obtain ⟨-, -, hdata, hdict, hnx, -, -⟩ := add_nncf_node_ok_struct h
  have hdnm : n.data.node_name = nm := by rw [hdata]
  have hkey : g'.get_node_key_by_id n.node_id = some (mkNodeKey n.node_id nm) := by
    unfold NNCFGraph.get_node_key_by_id
    rw [hdict]
    exact alistFind_insert_self _ _ _
  have hlook : g'.nx_graph.lookupNode (mkNodeKey n.node_id nm) = some n.data := by
    rw [hnx]
    show alistFind (alistInsert g.nx_graph.nodes (mkNodeKey n.node_id nm) n.data) _ = _
    exact alistFind_insert_self _ _ _
  constructor
  · rw [hkey, hdnm]
    rfl
  · refine ⟨⟨n.data.id, n.data⟩, ?_, ?_, rfl, rfl, rfl⟩
    · unfold NNCFGraph.get_node_by_id
      rw [hkey]
      show g'.get_node_by_key (mkNodeKey n.node_id nm) = _
      unfold NNCFGraph.get_node_by_key
      rw [hlook]
      rfl
    · rw [hdata]

/-- The node returned by the first insertion into the empty graph. -/
def nA0 : NNCFNode := (stepNode emptyNNCFGraph "in" "nncf_model_input" mtIn).1

theorem C10_insert_lookup_round_trip_witness :
    NNCFGraph.add_nncf_node emptyNNCFGraph "in" "nncf_model_input" mtIn none none []
      false false = .ok (nA0, cgA0) ∧
    (cgA0.get_node_key_by_id nA0.node_id =
      some (natRepr nA0.node_id ++ " " ++ nA0.data.node_name) ∧
    ∃ m, cgA0.get_node_by_id nA0.node_id = some m ∧ m.node_id = nA0.node_id ∧
      m.data.node_name = nA0.data.node_name ∧ m.data.type = nA0.data.type ∧
      m.data.metatype = nA0.data.metatype) :=
  ⟨rfl, C10_insert_lookup_round_trip emptyNNCFGraph "in" "nncf_model_input" mtIn
    none none [] false false nA0 cgA0 rfl⟩

/-! ### C3 — input/output boundary invariant -/

/-- C3: in every graph reachable by any sequence of `add_nncf_node` and
(successful) `add_edge_between_nncf_nodes` calls, no node registered in the
input index has an incoming edge, and no node registered in the output
index has an outgoing edge. -/
theorem C3_io_nodes_isolated (g : NNCFGraph) (h : Reachable g) :
    (∀ p ∈ g.input_nncf_nodes, ∀ e ∈ g.nx_graph.edges, e.dst ≠ p.2.data.key) ∧
    (∀ p ∈ g.output_nncf_nodes, ∀ e ∈ g.nx_graph.edges, e.src ≠ p.2.data.key) :=
  ⟨(reachable_wellFormed h).input_no_incoming,
   (reachable_wellFormed h).output_no_outgoing⟩

theorem C3_io_nodes_isolated_witness :
    Reachable cgA ∧
    ((∀ p ∈ cgA.input_nncf_nodes, ∀ e ∈ cgA.nx_graph.edges, e.dst ≠ p.2.data.key) ∧
     (∀ p ∈ cgA.output_nncf_nodes, ∀ e ∈ cgA.nx_graph.edges, e.src ≠ p.2.data.key)) :=
  ⟨reachable_cgA, C3_io_nodes_isolated cgA reachable_cgA⟩

/-! ### C2 — edge insertion error characterization -/

/-- C2: `add_edge_between_nncf_nodes` raises an error iff an endpoint id is
absent (then the `KeyError` the spec calls `UnknownNodeError`), or the
source is a registered output node / the target a registered input node
(then the `ValueError` the spec calls `InvalidTopologyError`); in every
other case it succeeds.  An error is raised before the edge store is
touched, which the functional model renders by the error branch carrying no
successor state: the pre-state is unchanged. -/
theorem C2_add_edge_error_iff (g : NNCFGraph) (hr : Reachable g)
    (fid tid : Nat) (shape : List Int) (port : Nat) (dt : String) :
    ((∃ e, NNCFGraph.add_edge_between_nncf_nodes g fid tid shape port dt =
        .error e) ↔
      (fid ∉ g.dictIds ∨ tid ∉ g.dictIds ∨ fid ∈ g.outputIds ∨
        tid ∈ g.inputIds)) ∧
    ((fid ∉ g.dictIds ∨ tid ∉ g.dictIds) →
      NNCFGraph.add_edge_between_nncf_nodes g fid tid shape port dt =
        .error .UnknownNodeError) ∧
    (fid ∈ g.dictIds → tid ∈ g.dictIds →
      (fid ∈ g.outputIds ∨ tid ∈ g.inputIds) →
      NNCFGraph.add_edge_between_nncf_nodes g fid tid shape port dt =
        .error .InvalidTopologyError) ∧
    (fid ∈ g.dictIds → tid ∈ g.dictIds → fid ∉ g.outputIds → tid ∉ g.inputIds →
      ∃ g', NNCFGraph.add_edge_between_nncf_nodes g fid tid shape port dt =
        .ok g') := by
  have hw := reachable_wellFormed hr
  cases hf : alistFind g.node_id_to_key_dict fid with
  | none =>
    have hfm : fid ∉ g.dictIds := by
      intro hc
      have hs := alistFind_isSome_of_mem_keys hc
      rw [hf] at hs
      simp at hs
    have heq : NNCFGraph.add_edge_between_nncf_nodes g fid tid shape port dt =
        .error .UnknownNodeError := by
      unfold NNCFGraph.add_edge_between_nncf_nodes
      rw [hf]
    exact ⟨⟨fun _ => Or.inl hfm, fun _ => ⟨_, heq⟩⟩, fun _ => heq,
      fun hc => absurd hc hfm, fun hc => absurd hc hfm⟩
  | some fk =>
    have hmf : fid ∈ g.dictIds := alistFind_mem_keys hf
    cases ht : alistFind g.node_id_to_key_dict tid with
    | none =>
      have htm : tid ∉ g.dictIds := by
        intro hc
        have hs := alistFind_isSome_of_mem_keys hc
        rw [ht] at hs
        simp at hs
      have heq : NNCFGraph.add_edge_between_nncf_nodes g fid tid shape port dt =
          .error .UnknownNodeError := by
        unfold NNCFGraph.add_edge_between_nncf_nodes
        rw [hf, ht]
      exact ⟨⟨fun _ => Or.inr (Or.inl htm), fun _ => ⟨_, heq⟩⟩, fun _ => heq,
        fun _ hc2 => absurd hc2 htm, fun _ hc2 => absurd hc2 htm⟩
    | some tk =>
      have hmt : tid ∈ g.dictIds := alistFind_mem_keys ht
      obtain ⟨af, haf0, -, -⟩ := hw.dict_to_node _ (alistFind_mem hf)
      obtain ⟨ag, hag0, -, -⟩ := hw.dict_to_node _ (alistFind_mem ht)
      have haf : g.nx_graph.lookupNode fk = some af := haf0
      have hag : g.nx_graph.lookupNode tk = some ag := hag0
      by_cases hti : tid ∈ g.inputIds
      · have heq : NNCFGraph.add_edge_between_nncf_nodes g fid tid shape port dt =
            .error .InvalidTopologyError := by
          unfold NNCFGraph.add_edge_between_nncf_nodes
          rw [hf, ht]
          simp [hti]
        refine ⟨⟨fun _ => Or.inr (Or.inr (Or.inr hti)), fun _ => ⟨_, heq⟩⟩,
          ?_, fun _ _ _ => heq, fun _ _ _ hc => absurd hti hc⟩
        rintro (hc | hc)
        · exact absurd hmf hc
        · exact absurd hmt hc
      · by_cases hfo : fid ∈ g.outputIds
        · have heq : NNCFGraph.add_edge_between_nncf_nodes g fid tid shape port dt =
              .error .InvalidTopologyError := by
            unfold NNCFGraph.add_edge_between_nncf_nodes
            rw [hf, ht]
            simp [hti, hfo]
          refine ⟨⟨fun _ => Or.inr (Or.inr (Or.inl hfo)), fun _ => ⟨_, heq⟩⟩,
            ?_, fun _ _ _ => heq, fun _ _ hc _ => absurd hfo hc⟩
          rintro (hc | hc)
          · exact absurd hmf hc
          · exact absurd hmt hc
        · have heq : NNCFGraph.add_edge_between_nncf_nodes g fid tid shape port dt =
              .ok { g with nx_graph :=
                g.nx_graph.addEdge fk tk ⟨shape, port, dt⟩ } := by
            unfold NNCFGraph.add_edge_between_nncf_nodes
            rw [hf, ht]
            simp [hti, hfo, haf, hag]
          refine ⟨⟨?_, ?_⟩, ?_, ?_, fun _ _ _ _ => ⟨_, heq⟩⟩
          · rintro ⟨e, he⟩
            rw [heq] at he
            exact absurd he (by simp)
          · rintro (hc | hc | hc | hc)
            · exact absurd hmf hc
            · exact absurd hmt hc
            · exact absurd hc hfo
            · exact absurd hc hti
          · rintro (hc | hc)
            · exact absurd hmf hc
            · exact absurd hmt hc
          · rintro - - (hc | hc)
            · exact absurd hc hfo
            · exact absurd hc hti

theorem C2_add_edge_error_iff_witness :
    Reachable cgA2 ∧
    (((∃ e, NNCFGraph.add_edge_between_nncf_nodes cgA2 2 0 [1] 0 "float" =
        .error e) ↔
      (2 ∉ cgA2.dictIds ∨ 0 ∉ cgA2.dictIds ∨ 2 ∈ cgA2.outputIds ∨
        0 ∈ cgA2.inputIds)) ∧
    ((2 ∉ cgA2.dictIds ∨ 0 ∉ cgA2.dictIds) →
      NNCFGraph.add_edge_between_nncf_nodes cgA2 2 0 [1] 0 "float" =
        .error .UnknownNodeError) ∧
    (2 ∈ cgA2.dictIds → 0 ∈ cgA2.dictIds →
      (2 ∈ cgA2.outputIds ∨ 0 ∈ cgA2.inputIds) →
      NNCFGraph.add_edge_between_nncf_nodes cgA2 2 0 [1] 0 "float" =
        .error .InvalidTopologyError) ∧
    (2 ∈ cgA2.dictIds → 0 ∈ cgA2.dictIds → 2 ∉ cgA2.outputIds → 0 ∉ cgA2.inputIds →
      ∃ g', NNCFGraph.add_edge_between_nncf_nodes cgA2 2 0 [1] 0 "float" =
        .ok g')) :=
  ⟨reachable_cgA2, C2_add_edge_error_iff cgA2 reachable_cgA2 2 0 [1] 0 "float"⟩

/-! ### C6 — node id assignment -/

theorem add_nncf_node_ok_of_fresh (g : NNCFGraph) (nm tp : String)
    (mt : OperatorMetatype) (ma : Option String) (ov : Option Nat)
    (ia : List String) (iis iii : Bool)
    (hfresh : g.assignedNodeId ov ∉ g.dictIds) :
    ∃ n g', NNCFGraph.add_nncf_node g nm tp mt ma ov ia iis iii = .ok (n, g') := by
  simp only [NNCFGraph.add_nncf_node]
  rw [if_neg hfresh]
  exact ⟨_, _, rfl⟩

theorem add_nncf_node_error_of_dup (g : NNCFGraph) (nm tp : String)
    (mt : OperatorMetatype) (ma : Option String) (ov : Option Nat)
    (ia : List String) (iis iii : Bool)
    (hdup : g.assignedNodeId ov ∈ g.dictIds) :
    NNCFGraph.add_nncf_node g nm tp mt ma ov ia iis iii =
      .error .DuplicateIdError := by
  simp only [NNCFGraph.add_nncf_node]
  rw [if_pos hdup]

/-- C6: `add_nncf_node` assigns the override id when given, else
`1 + max(existing ids)` (`0` on an empty graph); it fails — and only ever
with `DuplicateIdError` — exactly when the assigned id is taken (the raise
happens before any state is touched); on success the id set is extended by
the fresh id and stays duplicate-free, and without an override the new id
is strictly above every existing id. -/
theorem C6_node_id_assignment (g : NNCFGraph) (hr : Reachable g) (nm tp : String)
    (mt : OperatorMetatype) (ma : Option String) (ov : Option Nat)
    (ia : List String) (iis iii : Bool) :
    (∀ i, ov = some i →
      ((NNCFGraph.add_nncf_node g nm tp mt ma ov ia iis iii =
          .error .DuplicateIdError) ↔ i ∈ g.dictIds)) ∧
    (∀ e, NNCFGraph.add_nncf_node g nm tp mt ma ov ia iis iii = .error e →
      e = .DuplicateIdError) ∧
    (ov = none →
      ∃ n g', NNCFGraph.add_nncf_node g nm tp mt ma ov ia iis iii = .ok (n, g') ∧
        (∀ j ∈ g.dictIds, j < n.node_id) ∧
        (g.dictIds = [] → n.node_id = 0) ∧
        (g.dictIds ≠ [] → n.node_id = NNCFGraph.maxNatList g.dictIds + 1)) ∧
    (∀ n g', NNCFGraph.add_nncf_node g nm tp mt ma ov ia iis iii = .ok (n, g') →
      (∀ i, ov = some i → n.node_id = i) ∧ n.node_id ∉ g.dictIds ∧
      g'.dictIds = g.dictIds ++ [n.node_id] ∧ g'.dictIds.Nodup) := by
  refine ⟨?_, ?_, ?_, ?_⟩
  · intro i hi
    subst hi
    constructor
    · intro he
      by_cases hc : g.assignedNodeId (some i) ∈ g.dictIds
      · exact hc
      · obtain ⟨n, g', hok⟩ := add_nncf_node_ok_of_fresh g nm tp mt ma _ ia iis iii hc
        rw [hok] at he
        exact absurd he (by simp)
    · intro hc
      exact add_nncf_node_error_of_dup g nm tp mt ma _ ia iis iii hc
  · intro e he
    by_cases hc : g.assignedNodeId ov ∈ g.dictIds
    · rw [add_nncf_node_error_of_dup g nm tp mt ma _ ia iis iii hc] at he
      simpa using he.symm
    · obtain ⟨n, g', hok⟩ := add_nncf_node_ok_of_fresh g nm tp mt ma _ ia iis iii hc
      rw [hok] at he
      exact absurd he (by simp)
  · intro hov
    subst hov
    obtain ⟨n, g', hok⟩ := add_nncf_node_ok_of_fresh g nm tp mt ma none ia iis iii
      (assignedNodeId_none_fresh g)
    obtain ⟨hid, -, -, -, -, -, -⟩ := add_nncf_node_ok_struct hok
    refine ⟨n, g', hok, ?_, ?_, ?_⟩
    · rw [hid]
      exact assignedNodeId_none_gt g
    · intro hnil
      rw [hid]
      unfold NNCFGraph.assignedNodeId
      rw [if_pos hnil]
    · intro hne
      rw [hid]
      unfold NNCFGraph.assignedNodeId
      rw [if_neg hne]
  · intro n g' hok
    obtain ⟨hid, hfresh, -, hdict, -, -, -⟩ := add_nncf_node_ok_struct hok
    refine ⟨?_, hfresh, ?_, ?_⟩
    · intro i hi
      rw [hid, hi]
      rfl
    · unfold NNCFGraph.dictIds
      rw [hdict, alistInsert_not_mem _ hfresh]
      simp [NNCFGraph.dictIds]
    · exact (wellFormed_addNode (reachable_wellFormed hr) hok).ids_nodup

theorem C6_node_id_assignment_witness :
    Reachable cgA2 ∧
    ((∀ i, (none : Option Nat) = some i →
      ((NNCFGraph.add_nncf_node cgA2 "relu" "relu" mtPlain none none [] false false =
          .error .DuplicateIdError) ↔ i ∈ cgA2.dictIds)) ∧
    (∀ e, NNCFGraph.add_nncf_node cgA2 "relu" "relu" mtPlain none none [] false false =
        .error e → e = .DuplicateIdError) ∧
    ((none : Option Nat) = none →
      ∃ n g', NNCFGraph.add_nncf_node cgA2 "relu" "relu" mtPlain none none [] false
          false = .ok (n, g') ∧
        (∀ j ∈ cgA2.dictIds, j < n.node_id) ∧
        (cgA2.dictIds = [] → n.node_id = 0) ∧
        (cgA2.dictIds ≠ [] → n.node_id = NNCFGraph.maxNatList cgA2.dictIds + 1)) ∧
    (∀ n g', NNCFGraph.add_nncf_node cgA2 "relu" "relu" mtPlain none none [] false
        false = .ok (n, g') →
      (∀ i, (none : Option Nat) = some i → n.node_id = i) ∧ n.node_id ∉ cgA2.dictIds ∧
      g'.dictIds = cgA2.dictIds ++ [n.node_id] ∧ g'.dictIds.Nodup)) :=
  ⟨reachable_cgA2,
    C6_node_id_assignment cgA2 reachable_cgA2 "relu" "relu" mtPlain none none []
      false false⟩

/-! ### C7 — input edges sorted by port -/

theorem insertByPort_perm (e : NxEdge) (l : List NxEdge) :
    (NNCFGraph.insertByPort e l).Perm (e :: l) := by
  induction l with
  | nil => exact List.Perm.refl _
  | cons e' l ih =>
    simp only [NNCFGraph.insertByPort]
    split
    · exact List.Perm.refl _
    · exact (ih.cons e').trans (List.Perm.swap e e' l)

theorem sortByPort_perm_aux (l : List NxEdge) : ∀ acc : List NxEdge,
    (List.foldl (fun a e => NNCFGraph.insertByPort e a) acc l).Perm (acc ++ l) := by
  induction l with
  | nil => intro acc; simp
  | cons e l ih =>
    intro acc
    simp only [List.foldl_cons]
    have h1 := ih (NNCFGraph.insertByPort e acc)
    have h2 : (NNCFGraph.insertByPort e acc ++ l).Perm ((e :: acc) ++ l) :=
      (insertByPort_perm e acc).append_right l
    have h3 : ((e :: acc) ++ l).Perm (acc ++ e :: l) := List.perm_middle.symm
    exact (h1.trans h2).trans h3

theorem sortByPort_perm (l : List NxEdge) : (NNCFGraph.sortByPort l).Perm l := by
  have := sortByPort_perm_aux l []
  simpa [NNCFGraph.sortByPort] using this

theorem insertByPort_pairwise {l : List NxEdge} (e : NxEdge)
    (h : l.Pairwise (fun e1 e2 => e1.attrs.in_port ≤ e2.attrs.in_port)) :
    (NNCFGraph.insertByPort e l).Pairwise
      (fun e1 e2 => e1.attrs.in_port ≤ e2.attrs.in_port) := by
  induction l with
  | nil => simp [NNCFGraph.insertByPort]
  | cons e' l ih =>
    simp only [List.pairwise_cons] at h
    simp only [NNCFGraph.insertByPort]
    split
    · rename_i hlt
      refine List.Pairwise.cons ?_ (List.Pairwise.cons h.1 h.2)
      intro x hx
      rcases List.mem_cons.1 hx with hx | hx
      · rw [hx]
        exact Nat.le_of_lt hlt
      · exact Nat.le_trans (Nat.le_of_lt hlt) (h.1 x hx)
    · rename_i hge
      refine List.Pairwise.cons ?_ (ih h.2)
      intro x hx
      rcases List.mem_cons.1 ((insertByPort_perm e l).mem_iff.1 hx) with hx | hx
      · rw [hx]
        omega
      · exact h.1 x hx

theorem sortByPort_pairwise (l : List NxEdge) :
    (NNCFGraph.sortByPort l).Pairwise
      (fun e1 e2 => e1.attrs.in_port ≤ e2.attrs.in_port) := by
  suffices h : ∀ acc : List NxEdge,
      acc.Pairwise (fun e1 e2 => e1.attrs.in_port ≤ e2.attrs.in_port) →
      (List.foldl (fun a e => NNCFGraph.insertByPort e a) acc l).Pairwise
        (fun e1 e2 => e1.attrs.in_port ≤ e2.attrs.in_port) from
    h [] List.Pairwise.nil
  induction l with
  | nil => intro acc hacc; simpa using hacc
  | cons e l ih =>
    intro acc hacc
    simp only [List.foldl_cons]
    exact ih _ (insertByPort_pairwise e hacc)

/-- C7: `get_input_edges` returns all incoming edges of the node, sorted
ascending by `input_port_id`, strictly so when the incoming ports are
pairwise distinct. -/
theorem C7_input_edges_sorted (g : NNCFGraph) (node : NNCFNode) (k : String)
    (hk : alistFind g.node_id_to_key_dict node.node_id = some k) :
    ∃ l, g.get_input_edges node = some l ∧
      l.Perm (g.nx_graph.inEdges k) ∧
      l.Pairwise (fun e1 e2 => e1.attrs.in_port ≤ e2.attrs.in_port) ∧
      (((g.nx_graph.inEdges k).map (fun e => e.attrs.in_port)).Nodup →
        l.Pairwise (fun e1 e2 => e1.attrs.in_port < e2.attrs.in_port)) := by
  refine ⟨NNCFGraph.sortByPort (g.nx_graph.inEdges k), ?_, sortByPort_perm _,
    sortByPort_pairwise _, ?_⟩
  · unfold NNCFGraph.get_input_edges
    rw [hk]
    rfl
  · intro hnd
    have hperm := sortByPort_perm (g.nx_graph.inEdges k)
    have hnd' : ((NNCFGraph.sortByPort (g.nx_graph.inEdges k)).map
        (fun e => e.attrs.in_port)).Nodup := ((hperm.map _).symm.nodup_iff).mp hnd
    have hne : (NNCFGraph.sortByPort (g.nx_graph.inEdges k)).Pairwise
        (fun e1 e2 => e1.attrs.in_port ≠ e2.attrs.in_port) :=
      List.pairwise_map.mp hnd'
    have hle := sortByPort_pairwise (g.nx_graph.inEdges k)
    exact (hne.and hle).imp (fun h => Nat.lt_of_le_of_ne h.2 h.1)

/-- A diamond-free fan-in graph used by witnesses: plain nodes `0 a`, `1 b`,
`2 c` with edges `0 → 2` on port `1` and `1 → 2` on port `0`. -/
def cgB0 : NNCFGraph := (stepNode emptyNNCFGraph "a" "conv" mtPlain).2

def cgB1 : NNCFGraph := (stepNode cgB0 "b" "conv" mtPlain).2

def cgB2 : NNCFGraph := (stepNode cgB1 "c" "add" mtPlain).2

def cgB3 : NNCFGraph := stepEdge cgB2 0 2 1

def cgB : NNCFGraph := stepEdge cgB3 1 2 0

/-- The node `2 c` of `cgB`. -/
def nB2 : NNCFNode := (stepNode cgB1 "c" "add" mtPlain).1

theorem C7_input_edges_sorted_witness :
    alistFind cgB.node_id_to_key_dict nB2.node_id = some "2 c" ∧
    (∃ l, cgB.get_input_edges nB2 = some l ∧
      l.Perm (cgB.nx_graph.inEdges "2 c") ∧
      l.Pairwise (fun e1 e2 => e1.attrs.in_port ≤ e2.attrs.in_port) ∧
      (((cgB.nx_graph.inEdges "2 c").map (fun e => e.attrs.in_port)).Nodup →
        l.Pairwise (fun e1 e2 => e1.attrs.in_port < e2.attrs.in_port))) :=
  ⟨by decide, C7_input_edges_sorted cgB nB2 "2 c" (by decide)⟩

/-! ### C5 — parallel edges on distinct ports -/

theorem pair_mem_edgeUpdate (es : List NxEdge) (u v : String) (a : EdgeAttrs) :
    ∃ e ∈ NxDiGraph.edgeUpdate es u v a, e.src = u ∧ e.dst = v := by
  induction es with
  | nil => exact ⟨⟨u, v, a⟩, List.mem_singleton.2 rfl, rfl, rfl⟩
  | cons e es ih =>
    simp only [NxDiGraph.edgeUpdate]
    split
    · exact ⟨⟨u, v, a⟩, List.mem_cons_self _ _, rfl, rfl⟩
    · obtain ⟨e', he', hp⟩ := ih
      exact ⟨e', List.mem_cons_of_mem _ he', hp⟩

theorem edgeUpdate_length_of_pair_mem {es : List NxEdge} {u v : String}
    (a : EdgeAttrs) (h : ∃ e ∈ es, e.src = u ∧ e.dst = v) :
    (NxDiGraph.edgeUpdate es u v a).length = es.length := by
  induction es with
  | nil => simp at h
  | cons e es ih =>
    simp only [NxDiGraph.edgeUpdate]
    split
    · simp
    · rename_i hne
      obtain ⟨e', he', hp⟩ := h
      rcases List.mem_cons.1 he' with he' | he'
      · exact absurd (he' ▸ hp) hne
      · simp only [List.length_cons]
        rw [ih ⟨e', he', hp⟩]

theorem edgeUpdate_filter_pair {es : List NxEdge} {u v : String} (a : EdgeAttrs)
    (hnd : (es.map (fun e => (e.src, e.dst))).Nodup) :
    (NxDiGraph.edgeUpdate es u v a).filter (fun e => e.src = u ∧ e.dst = v) =
      [⟨u, v, a⟩] := by
  induction es with
  | nil => simp [NxDiGraph.edgeUpdate]
  | cons e es ih =>
    simp only [List.map_cons, List.nodup_cons] at hnd
    simp only [NxDiGraph.edgeUpdate]
    split
    · rename_i hm
      have hnone : ∀ e' ∈ es, ¬(e'.src = u ∧ e'.dst = v) := by
        intro e' he' hc
        apply hnd.1
        exact List.mem_map.2 ⟨e', he', by rw [hc.1, hc.2, ← hm.1, ← hm.2]⟩
      rw [List.filter_cons_of_pos (by simp)]
      rw [List.filter_eq_nil_iff.mpr (fun e' he' => by simpa using hnone e' he')]
    · rename_i hne
      rw [List.filter_cons_of_neg (by simpa using hne)]
      exact ih hnd.2

theorem filter_src_of_filter_dst (es : List NxEdge) (u v : String) :
    (es.filter (fun e => e.dst = v)).filter (fun e => e.src = u) =
      es.filter (fun e => e.src = u ∧ e.dst = v) := by
  rw [List.filter_filter _ es]
  apply List.filter_congr
  intro e _
  simp [Bool.decide_and]

/-- C5 (amended): a second successful `add_edge_between_nncf_nodes` call on
the same `(from_id, to_id)` pair does not add a second parallel edge — the
backing `networkx.DiGraph` keeps one edge per ordered pair, so the second
call overwrites the first call's attributes.  Afterwards the store holds
exactly one edge for the pair, carrying the second call's tensor shape,
port and dtype, and `get_input_edges` on the consumer shows exactly one
entry for that producer. -/
theorem C5_parallel_edge_overwritten (g : NNCFGraph) (hr : Reachable g)
    (fid tid : Nat) (s1 s2 : List Int) (p1 p2 : Nat) (d1 d2 : String)
    (g1 g2 : NNCFGraph) (fk tk : String) (node : NNCFNode)
    (hfk : alistFind g.node_id_to_key_dict fid = some fk)
    (htk : alistFind g.node_id_to_key_dict tid = some tk)
    (h1 : NNCFGraph.add_edge_between_nncf_nodes g fid tid s1 p1 d1 = .ok g1)
    (h2 : NNCFGraph.add_edge_between_nncf_nodes g1 fid tid s2 p2 d2 = .ok g2)
    (hnode : node.node_id = tid) :
    g2.nx_graph.edges.filter (fun e => e.src = fk ∧ e.dst = tk) =
      [⟨fk, tk, ⟨s2, p2, d2⟩⟩] ∧
    g2.nx_graph.edges.length = g1.nx_graph.edges.length ∧
    ∃ l, g2.get_input_edges node = some l ∧
      l.filter (fun e => e.src = fk) = [⟨fk, tk, ⟨s2, p2, d2⟩⟩] := by
  have hw := reachable_wellFormed hr
  have hw1 := wellFormed_addEdge hw h1
  obtain ⟨fk1, tk1, hf1, ht1, -, -, -, -, hnx1, hd1, -, -⟩ := add_edge_ok_struct h1
  rw [hfk] at hf1
  rw [htk] at ht1
  cases hf1
  cases ht1
  obtain ⟨fk2, tk2, hf2, ht2, -, -, -, -, hnx2, hd2, -, -⟩ := add_edge_ok_struct h2
  rw [hd1, hfk] at hf2
  rw [hd1, htk] at ht2
  cases hf2
  cases ht2
  have hedges1 : g1.nx_graph.edges =
      NxDiGraph.edgeUpdate g.nx_graph.edges fk tk ⟨s1, p1, d1⟩ := by
    rw [hnx1]
    rfl
  have hedges2 : g2.nx_graph.edges =
      NxDiGraph.edgeUpdate g1.nx_graph.edges fk tk ⟨s2, p2, d2⟩ := by
    rw [hnx2]
    rfl
  have hfilter : g2.nx_graph.edges.filter (fun e => e.src = fk ∧ e.dst = tk) =
      [⟨fk, tk, ⟨s2, p2, d2⟩⟩] := by
    rw [hedges2]
    exact edgeUpdate_filter_pair _ hw1.edge_pairs_nodup
  have hpairmem : ∃ e ∈ g1.nx_graph.edges, e.src = fk ∧ e.dst = tk := by
    rw [hedges1]
    exact pair_mem_edgeUpdate _ _ _ _
  refine ⟨hfilter, by rw [hedges2]; exact edgeUpdate_length_of_pair_mem _ hpairmem, ?_⟩
  have hk2 : alistFind g2.node_id_to_key_dict node.node_id = some tk := by
    rw [hnode, hd2, hd1]
    exact htk
  refine ⟨NNCFGraph.sortByPort (g2.nx_graph.inEdges tk), ?_, ?_⟩
  · unfold NNCFGraph.get_input_edges
    rw [hk2]
    rfl
  · have hperm : ((NNCFGraph.sortByPort (g2.nx_graph.inEdges tk)).filter
        (fun e => e.src = fk)).Perm
        ((g2.nx_graph.inEdges tk).filter (fun e => e.src = fk)) :=
      (sortByPort_perm _).filter _
    have heq : (g2.nx_graph.inEdges tk).filter (fun e => e.src = fk) =
        [⟨fk, tk, ⟨s2, p2, d2⟩⟩] := by
      show ((g2.nx_graph.edges.filter (fun e => e.dst = tk)).filter
        (fun e => e.src = fk)) = _
      rw [filter_src_of_filter_dst, hfilter]
    rw [heq] at hperm
    exact List.perm_singleton.mp hperm

/-- After inserting `0 → 1` on port `0` into the two-node graph. -/
def cgD1 : NNCFGraph := stepEdge cgB1 0 1 0

/-- After re-inserting `0 → 1` on port `1`. -/
def cgD2 : NNCFGraph := stepEdge cgD1 0 1 1

/-- The node `1 b` of the two-node graph. -/
def nD1 : NNCFNode := (stepNode cgB0 "b" "conv" mtPlain).1

/-- C5 as stated is false on the code: after two successful
`add_edge_between_nncf_nodes` calls with the same `(from_id, to_id)` pair
and distinct `input_port_id` values (`0` then `1`), the store holds one
edge, not two — the consumer's `get_input_edges` has a single entry for the
producer, bearing the second port. -/
theorem C5_counterexample_parallel_edge_dropped :
    NNCFGraph.add_edge_between_nncf_nodes cgB1 0 1 [1] 0 "float" = .ok cgD1 ∧
    NNCFGraph.add_edge_between_nncf_nodes cgD1 0 1 [1] 1 "float" = .ok cgD2 ∧
    cgD2.get_input_edges nD1 = some [⟨"0 a", "1 b", ⟨[1], 1, "float"⟩⟩] ∧
    cgD2.nx_graph.edges.length = 1 := by
  refine ⟨rfl, rfl, rfl, rfl⟩

theorem reachable_cgB1 : Reachable cgB1 :=
  Reachable.addNode cgB0 "b" "conv" mtPlain none none [] false false
    (stepNode cgB0 "b" "conv" mtPlain).1 cgB1
    (Reachable.addNode emptyNNCFGraph "a" "conv" mtPlain none none [] false false
      (stepNode emptyNNCFGraph "a" "conv" mtPlain).1 cgB0 Reachable.empty rfl) rfl

theorem C5_parallel_edge_overwritten_witness :
    Reachable cgB1 ∧
    NNCFGraph.add_edge_between_nncf_nodes cgB1 0 1 [1] 0 "float" = .ok cgD1 ∧
    NNCFGraph.add_edge_between_nncf_nodes cgD1 0 1 [1] 1 "float" = .ok cgD2 ∧
    (cgD2.nx_graph.edges.filter (fun e => e.src = "0 a" ∧ e.dst = "1 b") =
      [⟨"0 a", "1 b", ⟨[1], 1, "float"⟩⟩] ∧
    cgD2.nx_graph.edges.length = cgD1.nx_graph.edges.length ∧
    ∃ l, cgD2.get_input_edges nD1 = some l ∧
      l.filter (fun e => e.src = "0 a") = [⟨"0 a", "1 b", ⟨[1], 1, "float"⟩⟩]) :=
  ⟨reachable_cgB1, rfl, rfl,
    C5_parallel_edge_overwritten cgB1 reachable_cgB1 0 1 [1] [1] 0 1 "float" "float"
      cgD1 cgD2 "0 a" "1 b" nD1 rfl rfl rfl rfl rfl⟩

/-! ### C4 — structural boundary extraction -/

theorem filter_or_disjoint {α : Type} (p q : α → Bool) : ∀ l : List α,
    (∀ a ∈ l, ¬(p a = true ∧ q a = true)) →
    (l.filter (fun a => p a || q a)).Perm (l.filter p ++ l.filter q)
  | [], _ => by simp
  | a :: l, h => by
    have hrest := filter_or_disjoint p q l
      (fun a' ha' => h a' (List.mem_cons_of_mem _ ha'))
    by_cases hp : p a = true
    · have hq : ¬ q a = true := fun hq => h a (List.mem_cons_self a l) ⟨hp, hq⟩
      simp only [List.filter_cons, hp, hq, Bool.true_or, if_true, if_false]
      simpa using hrest.cons a
    · by_cases hq : q a = true
      · simp only [List.filter_cons, hp, hq, Bool.false_or, if_true, if_false]
        exact (hrest.cons a).trans List.perm_middle.symm
      · simp only [List.filter_cons, hp, hq, Bool.false_or, if_false]
        exact hrest

theorem flatMap_outEdges_perm (es : List NxEdge) : ∀ s : List String, s.Nodup →
    (s.flatMap (fun u => es.filter (fun e => e.src = u))).Perm
      (es.filter (fun e => e.src ∈ s))
  | [], _ => by simp
  | u :: s, hnd => by
    simp only [List.nodup_cons] at hnd
    have ih := flatMap_outEdges_perm es s hnd.2
    have hsplit := filter_or_disjoint (fun e => e.src = u)
      (fun e : NxEdge => e.src ∈ s) es
      (fun e _ hc => hnd.1 (by
        have h1 : e.src = u := by simpa using hc.1
        have h2 : e.src ∈ s := by simpa using hc.2
        exact h1 ▸ h2))
    have hcongr : es.filter (fun e => e.src ∈ u :: s) =
        es.filter (fun e => (e.src = u : Bool) || (e.src ∈ s : Bool)) := by
      apply List.filter_congr
      intro e _
      simp [List.mem_cons]
    rw [List.flatMap_cons, hcongr]
    exact ((ih.append_left _).trans hsplit.symm).symm.symm

/-- For a well-formed graph and a key of the graph, the wrapped node's
stored key is that key. -/
theorem nncfNodeOfKey_key {g : NNCFGraph} (hw : WellFormed g) {k : String}
    (hk : k ∈ g.nx_graph.nodeKeys) : (g.nncfNodeOfKey k).data.key = k := by
  have hs := alistFind_isSome_of_mem_keys (d := g.nx_graph.nodes) hk
  obtain ⟨a, ha⟩ := Option.isSome_iff_exists.1 hs
  have ha' : g.nx_graph.lookupNode k = some a := ha
  obtain ⟨-, hkey, -⟩ := hw.node_to_dict (k, a) (alistFind_mem ha)
  unfold NNCFGraph.nncfNodeOfKey
  rw [ha']
  exact hkey

theorem nxEdgeBoundary_sub (g : NxDiGraph) (s : List String) :
    ∀ e ∈ nxEdgeBoundary g s, e ∈ g.edges := by
  intro e he
  unfold nxEdgeBoundary at he
  have := List.mem_of_mem_filter he
  obtain ⟨u, -, hu⟩ := List.mem_flatMap.1 this
  exact List.mem_of_mem_filter hu

/-- The out-edge boundary of a duplicate-free node set is, up to order, the
set of stored edges leaving the set. -/
theorem nxEdgeBoundary_perm (g : NxDiGraph) (s : List String) (hnd : s.Nodup) :
    (nxEdgeBoundary g s).Perm
      (g.edges.filter (fun e => e.src ∈ s ∧ e.dst ∉ s)) := by
  unfold nxEdgeBoundary
  have hperm : ((s.flatMap (fun u => g.outEdges u)).filter
      (fun e => !(s.contains e.dst))).Perm
      ((g.edges.filter (fun e => e.src ∈ s)).filter
        (fun e => !(s.contains e.dst))) :=
    (flatMap_outEdges_perm g.edges s hnd).filter _
  refine hperm.trans ?_
  rw [List.filter_filter]
  have : ∀ e ∈ g.edges,
      ((!(s.contains e.dst) : Bool) && (e.src ∈ s : Bool)) =
        (e.src ∈ s ∧ e.dst ∉ s : Bool) := by
    intro e _
    by_cases h1 : e.src ∈ s <;> by_cases h2 : e.dst ∈ s <;>
      simp [h1, h2]
  rw [List.filter_congr this]

/-- The classification loop on a boundary list all of whose edges touch the
match: edges leaving the match go to `output_edges`, the remaining
(entering) edges to `input_edges`, in order. -/
theorem classifyBoundary_spec (g : NNCFGraph) (m : List String) :
    ∀ l : List NxEdge, (∀ e ∈ l, e.src ∈ m ∨ e.dst ∈ m) →
    g.classifyBoundary m l = .ok
      ((l.filter (fun e => e.src ∉ m)).map g.mkPatternEdge,
       (l.filter (fun e => e.src ∈ m)).map g.mkPatternEdge)
  | [], _ => rfl
  | e :: l, h => by
    have ih := classifyBoundary_spec g m l
      (fun e' he' => h e' (List.mem_cons_of_mem _ he'))
    by_cases hs : e.src ∈ m
    · have hc : m.contains e.src = true := by simpa using hs
      simp only [NNCFGraph.classifyBoundary, hc, if_true, ih, Except.map_ok,
        List.filter_cons, hs, decide_True, decide_False, decide_not,
        Bool.not_true, if_false, List.map_cons]
      rfl
    · have hd : e.dst ∈ m := (h e (List.mem_cons_self e l)).resolve_left hs
      have hc : m.contains e.src = false := by simpa using hs
      have hcd : m.contains e.dst = true := by simpa using hd
      simp only [NNCFGraph.classifyBoundary, hc, hcd, if_true, if_false,
        Bool.false_eq_true, ih, Except.map_ok, List.filter_cons, hs,
        decide_True, decide_False, decide_not, Bool.not_false, List.map_cons]
      rfl

theorem filter_boundary_split (inl outl : List NxEdge) (m : List String)
    (hin : ∀ e ∈ inl, e.src ∉ m) (hout : ∀ e ∈ outl, e.src ∈ m) :
    (inl ++ outl).filter (fun e => e.src ∉ m) = inl ∧
    (inl ++ outl).filter (fun e => e.src ∈ m) = outl := by
  constructor
  · rw [List.filter_append,
      List.filter_eq_self.mpr (fun e he => by simpa using hin e he),
      List.filter_eq_nil_iff.mpr (fun e he hc => by
        have : e.src ∉ m := by simpa using hc
        exact this (hout e he)),
      List.append_nil]
  · rw [List.filter_append,
      List.filter_eq_nil_iff.mpr (fun e he hc => by
        have : e.src ∈ m := by simpa using hc
        exact hin e he this),
      List.filter_eq_self.mpr (fun e he => by simpa using hout e he),
      List.nil_append]

/-- C4: the structural boundary computation splits the edge cut of `match`
exactly: `input_edges` are (up to order) the stored edges entering the
match, `output_edges` those leaving it, their union is the set of edges
with exactly one endpoint inside the match, and every returned edge points
the advertised way. -/
theorem C4_boundary_edge_cut (g : NNCFGraph) (hr : Reachable g) (m : List String)
    (hnd : m.Nodup) (hsub : ∀ k ∈ m, k ∈ g.nx_graph.nodeKeys) :
    ∃ io, g.get_nncf_graph_pattern_input_output m = .ok io ∧
      io.input_edges.Perm ((g.nx_graph.edges.filter
        (fun e => e.src ∉ m ∧ e.dst ∈ m)).map g.mkPatternEdge) ∧
      io.output_edges.Perm ((g.nx_graph.edges.filter
        (fun e => e.src ∈ m ∧ e.dst ∉ m)).map g.mkPatternEdge) ∧
      (io.input_edges ++ io.output_edges).Perm ((g.nx_graph.edges.filter
        (fun e => (e.src ∈ m ∧ e.dst ∉ m) ∨ (e.src ∉ m ∧ e.dst ∈ m))).map
          g.mkPatternEdge) ∧
      (∀ ed ∈ io.input_edges,
        ed.from_node.data.key ∉ m ∧ ed.to_node.data.key ∈ m) ∧
      (∀ ed ∈ io.output_edges,
        ed.from_node.data.key ∈ m ∧ ed.to_node.data.key ∉ m) := by
  have hw := reachable_wellFormed hr
  have hcnd : ((g.nx_graph.nodeKeys).filter (fun k => !(m.contains k))).Nodup :=
    hw.keys_nodup.filter _
  have hinb0 := nxEdgeBoundary_perm g.nx_graph
    ((g.nx_graph.nodeKeys).filter (fun k => !(m.contains k))) hcnd
  have hcongr_in : g.nx_graph.edges.filter
      (fun e => e.src ∈ (g.nx_graph.nodeKeys).filter (fun k => !(m.contains k)) ∧
        e.dst ∉ (g.nx_graph.nodeKeys).filter (fun k => !(m.contains k))) =
      g.nx_graph.edges.filter (fun e => e.src ∉ m ∧ e.dst ∈ m) := by
    apply List.filter_congr
    intro e he
    obtain ⟨h1, h2⟩ := hw.edge_ends e he
    by_cases hs : e.src ∈ m <;> by_cases hd : e.dst ∈ m <;>
      simp [hs, hd, h1, h2]
  rw [hcongr_in] at hinb0
  have houtb := nxEdgeBoundary_perm g.nx_graph m hnd
  have hin' : ∀ e ∈ nxEdgeBoundary g.nx_graph
      ((g.nx_graph.nodeKeys).filter (fun k => !(m.contains k))), e.src ∉ m := by
    intro e he
    have := List.of_mem_filter (List.Perm.mem_iff hinb0 |>.1 he)
    simp only [decide_eq_true_eq] at this
    exact this.1
  have hout' : ∀ e ∈ nxEdgeBoundary g.nx_graph m, e.src ∈ m := by
    intro e he
    have := List.of_mem_filter (List.Perm.mem_iff houtb |>.1 he)
    simp only [decide_eq_true_eq] at this
    exact this.1
  have hmemb : ∀ e ∈ nxEdgeBoundary g.nx_graph
      ((g.nx_graph.nodeKeys).filter (fun k => !(m.contains k))) ++
      nxEdgeBoundary g.nx_graph m, e.src ∈ m ∨ e.dst ∈ m := by
    intro e he
    rcases List.mem_append.1 he with he | he
    · right
      have := List.of_mem_filter (List.Perm.mem_iff hinb0 |>.1 he)
      simp only [decide_eq_true_eq] at this
      exact this.2
    · exact Or.inl (hout' e he)
  have hsplit := filter_boundary_split
    (nxEdgeBoundary g.nx_graph
      ((g.nx_graph.nodeKeys).filter (fun k => !(m.contains k))))
    (nxEdgeBoundary g.nx_graph m) m hin' hout'
  have hcl := classifyBoundary_spec g m _ hmemb
  rw [hsplit.1, hsplit.2] at hcl
  refine ⟨⟨(nxEdgeBoundary g.nx_graph
      ((g.nx_graph.nodeKeys).filter (fun k => !(m.contains k)))).map
        g.mkPatternEdge,
      (nxEdgeBoundary g.nx_graph m).map g.mkPatternEdge,
      (m.filter (fun k => g.nx_graph.predKeys k = [])).map g.nncfNodeOfKey,
      (m.filter (fun k => g.nx_graph.succKeys k = [])).map g.nncfNodeOfKey⟩,
    ?_, ?_, ?_, ?_, ?_, ?_⟩
  · simp only [NNCFGraph.get_nncf_graph_pattern_input_output]
    rw [hcl]
    rfl
  · exact hinb0.map _
  · exact houtb.map _
  · have happ : ((nxEdgeBoundary g.nx_graph
        ((g.nx_graph.nodeKeys).filter (fun k => !(m.contains k)))).map
          g.mkPatternEdge) ++ ((nxEdgeBoundary g.nx_graph m).map g.mkPatternEdge) =
        ((nxEdgeBoundary g.nx_graph
          ((g.nx_graph.nodeKeys).filter (fun k => !(m.contains k))) ++
        nxEdgeBoundary g.nx_graph m).map g.mkPatternEdge) :=
      (List.map_append _ _ _).symm
    rw [happ]
    refine ((hinb0.append houtb).map _).trans ?_
    have hor := filter_or_disjoint (fun e => decide (e.src ∉ m ∧ e.dst ∈ m))
      (fun e => decide (e.src ∈ m ∧ e.dst ∉ m)) g.nx_graph.edges
      (by
        intro e _ hc
        simp only [decide_eq_true_eq] at hc
        exact hc.1.1 hc.2.1)
    have hcongr2 : g.nx_graph.edges.filter
        (fun e => decide (e.src ∉ m ∧ e.dst ∈ m) ||
          decide (e.src ∈ m ∧ e.dst ∉ m)) =
        g.nx_graph.edges.filter
          (fun e => (e.src ∈ m ∧ e.dst ∉ m) ∨ (e.src ∉ m ∧ e.dst ∈ m)) := by
      apply List.filter_congr
      intro e _
      by_cases hs : e.src ∈ m <;> by_cases hd : e.dst ∈ m <;> simp [hs, hd]
    rw [hcongr2] at hor
    exact hor.symm.map _
  · intro ed hed
    obtain ⟨e, he, hede⟩ := List.mem_map.1 hed
    have hef := List.Perm.mem_iff hinb0 |>.1 he
    have hcond := List.of_mem_filter hef
    simp only [decide_eq_true_eq] at hcond
    have hee : e ∈ g.nx_graph.edges := List.mem_of_mem_filter hef
    obtain ⟨h1, h2⟩ := hw.edge_ends e hee
    rw [← hede]
    unfold NNCFGraph.mkPatternEdge
    rw [nncfNodeOfKey_key hw h1, nncfNodeOfKey_key hw h2]
    exact hcond
  · intro ed hed
    obtain ⟨e, he, hede⟩ := List.mem_map.1 hed
    have hef := List.Perm.mem_iff houtb |>.1 he
    have hcond := List.of_mem_filter hef
    simp only [decide_eq_true_eq] at hcond
    have hee : e ∈ g.nx_graph.edges := List.mem_of_mem_filter hef
    obtain ⟨h1, h2⟩ := hw.edge_ends e hee
    rw [← hede]
    unfold NNCFGraph.mkPatternEdge
    rw [nncfNodeOfKey_key hw h1, nncfNodeOfKey_key hw h2]
    exact hcond

theorem C4_boundary_edge_cut_witness :
    Reachable cgA ∧ (["1 conv"] : List String).Nodup ∧
    (∀ k ∈ ["1 conv"], k ∈ cgA.nx_graph.nodeKeys) ∧
    (∃ io, cgA.get_nncf_graph_pattern_input_output ["1 conv"] = .ok io ∧
      io.input_edges.Perm ((cgA.nx_graph.edges.filter
        (fun e => e.src ∉ ["1 conv"] ∧ e.dst ∈ ["1 conv"])).map cgA.mkPatternEdge) ∧
      io.output_edges.Perm ((cgA.nx_graph.edges.filter
        (fun e => e.src ∈ ["1 conv"] ∧ e.dst ∉ ["1 conv"])).map cgA.mkPatternEdge) ∧
      (io.input_edges ++ io.output_edges).Perm ((cgA.nx_graph.edges.filter
        (fun e => (e.src ∈ ["1 conv"] ∧ e.dst ∉ ["1 conv"]) ∨
          (e.src ∉ ["1 conv"] ∧ e.dst ∈ ["1 conv"]))).map cgA.mkPatternEdge) ∧
      (∀ ed ∈ io.input_edges,
        ed.from_node.data.key ∉ ["1 conv"] ∧ ed.to_node.data.key ∈ ["1 conv"]) ∧
      (∀ ed ∈ io.output_edges,
        ed.from_node.data.key ∈ ["1 conv"] ∧ ed.to_node.data.key ∉ ["1 conv"])) :=
  ⟨reachable_cgA, by decide, by decide,
    C4_boundary_edge_cut cgA reachable_cgA ["1 conv"] (by decide) (by decide)⟩

/-! ### C9 — isomorphism-based graph equality -/

theorem nodeMatchAttrs_symm {a b : NodeAttrs} (h : nodeMatchAttrs a b) :
    nodeMatchAttrs b a :=
  ⟨h.1.symm, h.2.1.symm, h.2.2.symm⟩

theorem optEdgeMatch_refl (o : Option EdgeAttrs) : optEdgeMatch o o := by
  cases o with
  | none => trivial
  | some a => exact ⟨rfl, rfl⟩

theorem optEdgeMatch_symm {o1 o2 : Option EdgeAttrs} (h : optEdgeMatch o1 o2) :
    optEdgeMatch o2 o1 := by
  cases o1 with
  | none => cases o2 with
    | none => trivial
    | some b => exact absurd h (by simp [optEdgeMatch])
  | some a => cases o2 with
    | none => exact absurd h (by simp [optEdgeMatch])
    | some b => exact ⟨h.1.symm, h.2.symm⟩

theorem lookupNode_isSome_of_mem {g : NxDiGraph} {k : String}
    (h : k ∈ g.nodeKeys) : (g.lookupNode k).isSome = true :=
  alistFind_isSome_of_mem_keys h

/-- Reflexivity of the isomorphism-based equality: the identity mapping is
an attribute-preserving isomorphism of any graph with itself. -/
theorem nncfGraphEq_refl (g : NNCFGraph) : nncfGraphEq g g := by
  refine ⟨id, fun k hk => hk, fun k1 _ k2 _ h => h, fun k2 hk2 => ⟨k2, hk2, rfl⟩,
    ?_, ?_⟩
  · intro k hk a1 ha1
    exact ⟨a1, ha1, rfl, rfl, rfl⟩
  · intro u _ v _
    exact optEdgeMatch_refl _

/-- An attribute-preserving isomorphism can be inverted. -/
theorem graphsIsoBy_symm {g1 g2 : NxDiGraph} {f : String → String}
    (h : graphsIsoBy g1 g2 f) : ∃ f', graphsIsoBy g2 g1 f' := by
  obtain ⟨hmap, hinj, hsurj, hnode, hedge⟩ := h
  have hex : ∀ k2 ∈ g2.nodeKeys, ∃ a ∈ {k | k ∈ g1.nodeKeys}, f a = k2 := by
    intro k2 hk2
    obtain ⟨k1, hk1, hfk1⟩ := hsurj k2 hk2
    exact ⟨k1, hk1, hfk1⟩
  refine ⟨Function.invFunOn f {k | k ∈ g1.nodeKeys}, ?_, ?_, ?_, ?_, ?_⟩
  · intro k2 hk2
    exact Function.invFunOn_mem (hex k2 hk2)
  · intro k2 hk2 k2' hk2' heq
    have h1 := Function.invFunOn_eq (hex k2 hk2)
    have h2 := Function.invFunOn_eq (hex k2' hk2')
    rw [heq] at h1
    rw [h2] at h1
    exact h1.symm
  · intro k1 hk1
    refine ⟨f k1, hmap k1 hk1, ?_⟩
    have hmem : Function.invFunOn f {k | k ∈ g1.nodeKeys} (f k1) ∈
        {k | k ∈ g1.nodeKeys} := Function.invFunOn_mem ⟨k1, hk1, rfl⟩
    have heq : f (Function.invFunOn f {k | k ∈ g1.nodeKeys} (f k1)) = f k1 :=
      Function.invFunOn_eq ⟨k1, hk1, rfl⟩
    exact hinj _ hmem k1 hk1 heq
  · intro k2 hk2 a2 ha2
    have hmem : Function.invFunOn f {k | k ∈ g1.nodeKeys} k2 ∈ g1.nodeKeys :=
      Function.invFunOn_mem (hex k2 hk2)
    have heqf : f (Function.invFunOn f {k | k ∈ g1.nodeKeys} k2) = k2 :=
      Function.invFunOn_eq (hex k2 hk2)
    obtain ⟨a1, ha1⟩ := Option.isSome_iff_exists.1 (lookupNode_isSome_of_mem hmem)
    obtain ⟨a2', ha2', hmatch⟩ := hnode _ hmem a1 ha1
    rw [heqf, ha2] at ha2'
    cases ha2'
    exact ⟨a1, ha1, nodeMatchAttrs_symm hmatch⟩
  · intro u2 hu2 v2 hv2
    have hmu : Function.invFunOn f {k | k ∈ g1.nodeKeys} u2 ∈ g1.nodeKeys :=
      Function.invFunOn_mem (hex u2 hu2)
    have hmv : Function.invFunOn f {k | k ∈ g1.nodeKeys} v2 ∈ g1.nodeKeys :=
      Function.invFunOn_mem (hex v2 hv2)
    have hqu : f (Function.invFunOn f {k | k ∈ g1.nodeKeys} u2) = u2 :=
      Function.invFunOn_eq (hex u2 hu2)
    have hqv : f (Function.invFunOn f {k | k ∈ g1.nodeKeys} v2) = v2 :=
      Function.invFunOn_eq (hex v2 hv2)
    have := hedge _ hmu _ hmv
    rw [hqu, hqv] at this
    exact optEdgeMatch_symm this

/-- Equality of the two graphs is symmetric. -/
theorem nncfGraphEq_symm_iff (g1 g2 : NNCFGraph) :
    nncfGraphEq g1 g2 ↔ nncfGraphEq g2 g1 :=
  ⟨fun ⟨_, hf⟩ => graphsIsoBy_symm hf, fun ⟨_, hf⟩ => graphsIsoBy_symm hf⟩

/-- Isomorphic graphs have the same number of nodes. -/
theorem graphsIsoBy_keys_length {g1 g2 : NxDiGraph} {f : String → String}
    (h : graphsIsoBy g1 g2 f) (h1 : g1.nodeKeys.Nodup) (h2 : g2.nodeKeys.Nodup) :
    g1.nodeKeys.length = g2.nodeKeys.length := by
  obtain ⟨hmap, hinj, hsurj, -, -⟩ := h
  have himage : g1.nodeKeys.toFinset.image f = g2.nodeKeys.toFinset := by
    ext x
    simp only [Finset.mem_image, List.mem_toFinset]
    constructor
    · rintro ⟨k, hk, rfl⟩
      exact hmap k hk
    · intro hx
      obtain ⟨k1, hk1, hfk1⟩ := hsurj x hx
      exact ⟨k1, hk1, hfk1⟩
  have hcard : (g1.nodeKeys.toFinset.image f).card = g1.nodeKeys.toFinset.card :=
    Finset.card_image_of_injOn (fun a ha b hb heq =>
      hinj a (List.mem_toFinset.1 ha) b (List.mem_toFinset.1 hb) heq)
  rw [himage] at hcard
  rw [← List.toFinset_card_of_nodup h1, ← List.toFinset_card_of_nodup h2, hcard]

theorem optEdgeMatch_isSome {o1 o2 : Option EdgeAttrs} (h : optEdgeMatch o1 o2) :
    o1.isSome = o2.isSome := by
  cases o1 <;> cases o2 <;> simp_all [optEdgeMatch]

theorem lookupEdge_isSome_iff {g : NxDiGraph} {u v : String} :
    (g.lookupEdge u v).isSome = true ↔
      (u, v) ∈ g.edges.map (fun e => (e.src, e.dst)) := by
  unfold NxDiGraph.lookupEdge
  constructor
  · intro h
    cases hf : g.edges.find? (fun e => e.src = u ∧ e.dst = v) with
    | none => rw [hf] at h; simp at h
    | some e =>
      have hmem := List.mem_of_find?_eq_some hf
      have hp := List.find?_some hf
      simp only [decide_eq_true_eq] at hp
      exact List.mem_map.2 ⟨e, hmem, by rw [hp.1, hp.2]⟩
  · intro h
    obtain ⟨e, he, hpe⟩ := List.mem_map.1 h
    have hpe' : e.src = u ∧ e.dst = v := by
      have h1 := congrArg Prod.fst hpe
      have h2 := congrArg Prod.snd hpe
      exact ⟨h1, h2⟩
    have hs : (g.edges.find? (fun e => e.src = u ∧ e.dst = v)).isSome :=
      List.find?_isSome.2 ⟨e, he, by simp [hpe'.1, hpe'.2]⟩
    cases hf : g.edges.find? (fun e => e.src = u ∧ e.dst = v) with
    | none => rw [hf] at hs; simp at hs
    | some e' => rfl

/-- Isomorphic graphs have the same number of stored edges. -/
theorem graphsIsoBy_edges_length {g1 g2 : NxDiGraph} {f : String → String}
    (h : graphsIsoBy g1 g2 f)
    (he1 : ∀ e ∈ g1.edges, e.src ∈ g1.nodeKeys ∧ e.dst ∈ g1.nodeKeys)
    (he2 : ∀ e ∈ g2.edges, e.src ∈ g2.nodeKeys ∧ e.dst ∈ g2.nodeKeys)
    (hn1 : (g1.edges.map (fun e => (e.src, e.dst))).Nodup)
    (hn2 : (g2.edges.map (fun e => (e.src, e.dst))).Nodup) :
    g1.edges.length = g2.edges.length := by
  obtain ⟨hmap, hinj, hsurj, -, hedge⟩ := h
  have himage : ((g1.edges.map (fun e => (e.src, e.dst))).toFinset.image
      (fun p => (f p.1, f p.2))) =
      (g2.edges.map (fun e => (e.src, e.dst))).toFinset := by
    ext p
    simp only [Finset.mem_image, List.mem_toFinset]
    constructor
    · rintro ⟨q, hq, rfl⟩
      obtain ⟨e, he, rfl⟩ := List.mem_map.1 hq
      have hu := (he1 e he).1
      have hv := (he1 e he).2
      have hm := hedge _ hu _ hv
      have hs1 : (g1.lookupEdge e.src e.dst).isSome = true :=
        lookupEdge_isSome_iff.2 (List.mem_map.2 ⟨e, he, rfl⟩)
      have hs2 : (g2.lookupEdge (f e.src) (f e.dst)).isSome = true := by
        rw [← optEdgeMatch_isSome hm]
        exact hs1
      exact lookupEdge_isSome_iff.1 hs2
    · intro hp
      obtain ⟨e2, he2m, rfl⟩ := List.mem_map.1 hp
      obtain ⟨u1, hu1, hfu⟩ := hsurj e2.src (he2 e2 he2m).1
      obtain ⟨v1, hv1, hfv⟩ := hsurj e2.dst (he2 e2 he2m).2
      have hm := hedge _ hu1 _ hv1
      rw [hfu, hfv] at hm
      have hs2 : (g2.lookupEdge e2.src e2.dst).isSome = true :=
        lookupEdge_isSome_iff.2 (List.mem_map.2 ⟨e2, he2m, rfl⟩)
      have hs1 : (g1.lookupEdge u1 v1).isSome = true := by
        rw [optEdgeMatch_isSome hm]
        exact hs2
      exact ⟨(u1, v1), lookupEdge_isSome_iff.1 hs1, by rw [hfu, hfv]⟩
  have hinj2 : Set.InjOn (fun p : String × String => (f p.1, f p.2))
      ((g1.edges.map (fun e => (e.src, e.dst))).toFinset : Finset (String × String)) := by
    intro p hp q hq heq
    have hpm := List.mem_toFinset.1 hp
    have hqm := List.mem_toFinset.1 hq
    obtain ⟨ep, hep, hpe⟩ := List.mem_map.1 hpm
    obtain ⟨eq', heq', hqe⟩ := List.mem_map.1 hqm
    have hp1 : p.1 ∈ g1.nodeKeys := by
      rw [← hpe]
      exact (he1 ep hep).1
    have hp2 : p.2 ∈ g1.nodeKeys := by
      rw [← hpe]
      exact (he1 ep hep).2
    have hq1 : q.1 ∈ g1.nodeKeys := by
      rw [← hqe]
      exact (he1 eq' heq').1
    have hq2 : q.2 ∈ g1.nodeKeys := by
      rw [← hqe]
      exact (he1 eq' heq').2
    have e1 := congrArg Prod.fst heq
    have e2 := congrArg Prod.snd heq
    have hx1 : p.1 = q.1 := hinj _ hp1 _ hq1 e1
    have hx2 : p.2 = q.2 := hinj _ hp2 _ hq2 e2
    exact Prod.ext hx1 hx2
  have hcard := Finset.card_image_of_injOn hinj2
  rw [himage] at hcard
  have hl1 : (g1.edges.map (fun e => (e.src, e.dst))).toFinset.card =
      g1.edges.length := by
    rw [List.toFinset_card_of_nodup hn1, List.length_map]
  have hl2 : (g2.edges.map (fun e => (e.src, e.dst))).toFinset.card =
      g2.edges.length := by
    rw [List.toFinset_card_of_nodup hn2, List.length_map]
  rw [← hl1, ← hl2, hcard]

theorem lookupEdge_none_forall {g : NxDiGraph} {u v : String}
    (h : g.lookupEdge u v = none) :
    ∀ e ∈ g.edges, ¬(e.src = u ∧ e.dst = v) := by
  intro e he hc
  cases hf : g.edges.find? (fun e => e.src = u ∧ e.dst = v) with
  | some e' =>
    unfold NxDiGraph.lookupEdge at h
    rw [hf] at h
    exact absurd h (by simp)
  | none =>
    have := List.find?_eq_none.1 hf e he
    simp only [decide_eq_true_eq] at this
    exact this hc

/-- C9 (amended): graph equality is reflexive and symmetric; adding a node,
or adding an edge between a pair of nodes not linked before, makes the
graph unequal to its pre-mutation snapshot.  (Re-adding an existing edge
overwrites attributes in place and can leave the graph equal to the
snapshot — see the counterexample.) -/
theorem C9_graph_equality_properties :
    (∀ g : NNCFGraph, nncfGraphEq g g) ∧
    (∀ g1 g2 : NNCFGraph, nncfGraphEq g1 g2 ↔ nncfGraphEq g2 g1) ∧
    (∀ (g : NNCFGraph) (nm tp : String) (mt : OperatorMetatype)
      (ma : Option String) (ov : Option Nat) (ia : List String) (iis iii : Bool)
      (n : NNCFNode) (g' : NNCFGraph), Reachable g →
      NNCFGraph.add_nncf_node g nm tp mt ma ov ia iis iii = .ok (n, g') →
      ¬ nncfGraphEq g' g) ∧
    (∀ (g : NNCFGraph) (fid tid : Nat) (shape : List Int) (port : Nat)
      (dt : String) (g' : NNCFGraph) (fk tk : String), Reachable g →
      alistFind g.node_id_to_key_dict fid = some fk →
      alistFind g.node_id_to_key_dict tid = some tk →
      g.nx_graph.lookupEdge fk tk = none →
      NNCFGraph.add_edge_between_nncf_nodes g fid tid shape port dt = .ok g' →
      ¬ nncfGraphEq g' g) := by
  refine ⟨nncfGraphEq_refl, nncfGraphEq_symm_iff, ?_, ?_⟩
  · intro g nm tp mt ma ov ia iis iii n g' hr hok hiso
    obtain ⟨f, hf⟩ := hiso
    have hw := reachable_wellFormed hr
    have hw' := wellFormed_addNode hw hok
    obtain ⟨-, hfresh, -, -, hnx, -, -⟩ := add_nncf_node_ok_struct hok
    have hkfresh : mkNodeKey n.node_id nm ∉ g.nx_graph.nodeKeys :=
      newKey_not_mem hw hfresh
    have hkeys' : g'.nx_graph.nodeKeys =
        g.nx_graph.nodeKeys ++ [mkNodeKey n.node_id nm] := by
      unfold NxDiGraph.nodeKeys
      rw [hnx]
      show (alistInsert g.nx_graph.nodes (mkNodeKey n.node_id nm) n.data).map
        Prod.fst = _
      rw [alistInsert_not_mem _ hkfresh]
      simp
    have hlen := graphsIsoBy_keys_length hf hw'.keys_nodup hw.keys_nodup
    rw [hkeys'] at hlen
    simp at hlen
  · intro g fid tid shape port dt g' fk tk hr hfk htk hnoedge hok hiso
    obtain ⟨f, hf⟩ := hiso
    have hw := reachable_wellFormed hr
    have hw' := wellFormed_addEdge hw hok
    obtain ⟨fk1, tk1, hf1, ht1, -, -, -, -, hnx, -, -, -⟩ := add_edge_ok_struct hok
    rw [hfk] at hf1
    rw [htk] at ht1
    cases hf1
    cases ht1
    have hedges' : g'.nx_graph.edges =
        g.nx_graph.edges ++ [⟨fk, tk, ⟨shape, port, dt⟩⟩] := by
      rw [hnx]
      show NxDiGraph.edgeUpdate g.nx_graph.edges fk tk ⟨shape, port, dt⟩ = _
      exact edgeUpdate_eq_append _ (lookupEdge_none_forall hnoedge)
    have hlen := graphsIsoBy_edges_length hf hw'.edge_ends hw.edge_ends
      hw'.edge_pairs_nodup hw.edge_pairs_nodup
    rw [hedges'] at hlen
    simp at hlen

/-- C9 as stated is refuted by re-adding an existing edge: the call
`add_edge_between_nncf_nodes(0, 1, [1], 0, float)` on a graph that already
holds that edge with those attributes succeeds, returns the identical
graph, and the "mutated" graph is still equal to the pre-mutation
snapshot. -/
theorem C9_counterexample_readd_edge :
    NNCFGraph.add_edge_between_nncf_nodes cgD1 0 1 [1] 0 "float" = .ok cgD1 ∧
    nncfGraphEq cgD1 cgD1 :=
  ⟨rfl, nncfGraphEq_refl cgD1⟩

theorem reachable_cgB2 : Reachable cgB2 :=
  Reachable.addNode cgB1 "c" "add" mtPlain none none [] false false
    (stepNode cgB1 "c" "add" mtPlain).1 cgB2 reachable_cgB1 rfl

theorem C9_graph_equality_properties_witness :
    Reachable cgB1 ∧
    NNCFGraph.add_nncf_node cgB1 "c" "add" mtPlain none none [] false false =
      .ok (nB2, cgB2) ∧
    ¬ nncfGraphEq cgB2 cgB1 ∧
    Reachable cgB2 ∧
    alistFind cgB2.node_id_to_key_dict 0 = some "0 a" ∧
    alistFind cgB2.node_id_to_key_dict 2 = some "2 c" ∧
    cgB2.nx_graph.lookupEdge "0 a" "2 c" = none ∧
    NNCFGraph.add_edge_between_nncf_nodes cgB2 0 2 [1] 1 "float" = .ok cgB3 ∧
    ¬ nncfGraphEq cgB3 cgB2 :=
  ⟨reachable_cgB1, rfl,
    C9_graph_equality_properties.2.2.1 cgB1 "c" "add" mtPlain none none [] false
      false nB2 cgB2 reachable_cgB1 rfl,
    reachable_cgB2, rfl, rfl, rfl, rfl,
    C9_graph_equality_properties.2.2.2 cgB2 0 2 [1] 1 "float" cgB3 "0 a" "2 c"
      reachable_cgB2 rfl rfl rfl rfl⟩

/-! ### C1 — lexicographic topological sort

Cycles are paths of at least one edge from a node to itself; acyclicity is
the absence of such a path.  On every nonempty set of remaining nodes of an
acyclic graph some node has no predecessor inside the set (otherwise
following predecessors forever would, by pigeonhole, close a cycle), which
is exactly what makes Kahn's algorithm total on DAGs. -/

/-- Nonempty directed paths over an abstract step relation. -/
inductive RelPath (r : String → String → Prop) : String → String → Prop
  | single {a b : String} : r a b → RelPath r a b
  | cons {a b c : String} : r a b → RelPath r b c → RelPath r a c

/-- The step relation of the stored edges. -/
def edgeRel (g : NxDiGraph) (a b : String) : Prop :=
  ∃ e ∈ g.edges, e.src = a ∧ e.dst = b

/-- A directed cycle: a nonempty edge path from some node back to itself. -/
def HasCycle (g : NxDiGraph) : Prop := ∃ v, RelPath (edgeRel g) v v

theorem relPath_rank {g : NxDiGraph} {f : String → Nat}
    (hf : ∀ e ∈ g.edges, f e.src < f e.dst) :
    ∀ {a b : String}, RelPath (edgeRel g) a b → f a < f b := by
  intro a b hp
  induction hp with
  | single h =>
    obtain ⟨e, he, h1, h2⟩ := h
    rw [← h1, ← h2]
    exact hf e he
  | cons h _ ih =>
    obtain ⟨e, he, h1, h2⟩ := h
    have h3 := hf e he
    rw [h1, h2] at h3
    omega

/-- A graph whose edges strictly increase some rank has no cycle (used to
discharge acyclicity on concrete graphs, with the node id as the rank). -/
theorem no_cycle_of_rank (g : NxDiGraph) (f : String → Nat)
    (hf : ∀ e ∈ g.edges, f e.src < f e.dst) : ¬ HasCycle g := by
  rintro ⟨v, hp⟩
  exact absurd (relPath_rank hf hp) (Nat.lt_irrefl _)

theorem hasPredIn_iff {g : NxDiGraph} {r : List String} {v : String} :
    g.hasPredIn r v = true ↔ ∃ e ∈ g.edges, e.src ∈ r ∧ e.dst = v := by
  unfold NxDiGraph.hasPredIn
  simp [List.any_eq_true]

theorem mem_readyNodes {g : NxDiGraph} {r : List String} {v : String} :
    v ∈ g.readyNodes r ↔
      v ∈ r ∧ ¬ ∃ e ∈ g.edges, e.src ∈ r ∧ e.dst = v := by
  unfold NxDiGraph.readyNodes
  rw [List.mem_filter]
  constructor
  · rintro ⟨h1, h2⟩
    refine ⟨h1, fun hc => ?_⟩
    rw [Bool.not_eq_true'] at h2
    rw [hasPredIn_iff.2 hc] at h2
    exact absurd h2 (by simp)
  · rintro ⟨h1, h2⟩
    refine ⟨h1, ?_⟩
    rw [Bool.not_eq_true']
    cases hb : g.hasPredIn r v with
    | false => rfl
    | true => exact absurd (hasPredIn_iff.1 hb) h2

/-- In an acyclic graph every nonempty remaining set has a ready node. -/
theorem readyNodes_ne_nil {g : NxDiGraph} {r : List String} (hne : r ≠ [])
    (hacyc : ¬ HasCycle g) : g.readyNodes r ≠ [] := by
  intro hready
  have hall : ∀ v ∈ r, ∃ u ∈ r, edgeRel g u v := by
    intro v hv
    by_cases hp : g.hasPredIn r v = true
    · obtain ⟨e, he, h1, h2⟩ := hasPredIn_iff.1 hp
      exact ⟨e.src, h1, e, he, rfl, h2⟩
    · exfalso
      have : v ∈ g.readyNodes r := mem_readyNodes.2 ⟨hv, fun hc =>
        hp (hasPredIn_iff.2 hc)⟩
      rw [hready] at this
      simp at this
  have hchoice : ∀ v : {x // x ∈ r}, ∃ u : {x // x ∈ r}, edgeRel g u.val v.val := by
    rintro ⟨v, hv⟩
    obtain ⟨u, hu, hedge⟩ := hall v hv
    exact ⟨⟨u, hu⟩, hedge⟩
  classical
  choose p hp using hchoice
  obtain ⟨x0, hx0⟩ : ∃ x, x ∈ r := by
    cases r with
    | nil => exact absurd rfl hne
    | cons a l => exact ⟨a, List.mem_cons_self a l⟩
  have hmaps : ∀ k ∈ Finset.range (r.length + 1),
      (p^[k] ⟨x0, hx0⟩).val ∈ r.toFinset := by
    intro k _
    exact List.mem_toFinset.2 (p^[k] ⟨x0, hx0⟩).property
  have hcard : r.toFinset.card < (Finset.range (r.length + 1)).card := by
    rw [Finset.card_range]
    exact Nat.lt_succ_of_le (List.toFinset_card_le r)
  obtain ⟨a, ha, b, hb, hab, heq⟩ :=
    Finset.exists_ne_map_eq_of_card_lt_of_maps_to hcard hmaps
  have hstep : ∀ k : Nat, edgeRel g (p^[k + 1] ⟨x0, hx0⟩).val
      (p^[k] ⟨x0, hx0⟩).val := by
    intro k
    rw [Function.iterate_succ_apply']
    exact hp _
  have hpath : ∀ d : Nat, 1 ≤ d → ∀ k : Nat,
      RelPath (edgeRel g) (p^[k + d] ⟨x0, hx0⟩).val (p^[k] ⟨x0, hx0⟩).val := by
    intro d
    induction d with
    | zero => omega
    | succ d ih =>
      intro hd k
      by_cases hd1 : d = 0
      · subst hd1
        exact RelPath.single (hstep k)
      · have hkd : k + (d + 1) = (k + d) + 1 := by omega
        rw [hkd]
        exact RelPath.cons (hstep (k + d)) (ih (by omega) k)
  apply hacyc
  rcases Nat.lt_or_ge a b with hlt | hge
  · refine ⟨(p^[a] ⟨x0, hx0⟩).val, ?_⟩
    have hb' : b = a + (b - a) := by omega
    have := hpath (b - a) (by omega) a
    rw [← hb'] at this
    rw [← heq] at this
    exact this
  · have hlt : b < a := by omega
    refine ⟨(p^[b] ⟨x0, hx0⟩).val, ?_⟩
    have ha' : a = b + (a - b) := by omega
    have := hpath (a - b) (by omega) b
    rw [← ha'] at this
    rw [heq] at this
    exact this

theorem minByKeyFn_eq_none {f : String → Nat} : ∀ {l : List String},
    NxDiGraph.minByKeyFn f l = none → l = []
  | [], _ => rfl
  | x :: xs, h => by
    exfalso
    simp only [NxDiGraph.minByKeyFn] at h
    cases hm : NxDiGraph.minByKeyFn f xs with
    | none =>
      simp only [hm] at h
      exact Option.noConfusion h
    | some y =>
      simp only [hm] at h
      by_cases hle : f x ≤ f y
      · rw [if_pos hle] at h
        exact Option.noConfusion h
      · rw [if_neg hle] at h
        exact Option.noConfusion h

theorem minByKeyFn_mem {f : String → Nat} : ∀ {l : List String} {v : String},
    NxDiGraph.minByKeyFn f l = some v → v ∈ l
  | [], _, h => by simp [NxDiGraph.minByKeyFn] at h
  | x :: xs, v, h => by
    simp only [NxDiGraph.minByKeyFn] at h
    cases hm : NxDiGraph.minByKeyFn f xs with
    | none =>
      simp only [hm] at h
      cases h
      exact List.mem_cons_self _ _
    | some y =>
      simp only [hm] at h
      by_cases hle : f x ≤ f y
      · rw [if_pos hle] at h
        cases h
        exact List.mem_cons_self _ _
      · rw [if_neg hle] at h
        cases h
        exact List.mem_cons_of_mem _ (minByKeyFn_mem hm)

theorem minByKeyFn_le {f : String → Nat} : ∀ {l : List String} {v : String},
    NxDiGraph.minByKeyFn f l = some v → ∀ w ∈ l, f v ≤ f w
  | [], _, h => by simp [NxDiGraph.minByKeyFn] at h
  | x :: xs, v, h => by
    intro w hw
    simp only [NxDiGraph.minByKeyFn] at h
    cases hm : NxDiGraph.minByKeyFn f xs with
    | none =>
      simp only [hm] at h
      cases h
      have hxs : xs = [] := minByKeyFn_eq_none hm
      subst hxs
      rcases List.mem_cons.1 hw with hw | hw
      · rw [hw]
      · simp at hw
    | some y =>
      simp only [hm] at h
      by_cases hle : f x ≤ f y
      · rw [if_pos hle] at h
        cases h
        rcases List.mem_cons.1 hw with hw | hw
        · rw [hw]
        · exact Nat.le_trans hle (minByKeyFn_le hm w hw)
      · rw [if_neg hle] at h
        cases h
        rcases List.mem_cons.1 hw with hw | hw
        · rw [hw]
          omega
        · exact minByKeyFn_le hm w hw

theorem minByKeyFn_ne_none {f : String → Nat} {l : List String} (h : l ≠ []) :
    ∃ v, NxDiGraph.minByKeyFn f l = some v := by
  cases hm : NxDiGraph.minByKeyFn f l with
  | none => exact absurd (minByKeyFn_eq_none hm) h
  | some v => exact ⟨v, rfl⟩

/-- On an acyclic graph, Kahn's algorithm with enough fuel always
succeeds. -/
theorem kahnAux_ok (g : NxDiGraph) (hacyc : ¬ HasCycle g) :
    ∀ (fuel : Nat) (r : List String), r.length ≤ fuel →
    ∃ l, g.kahnAux fuel r = .ok l := by
  intro fuel
  induction fuel with
  | zero =>
    intro r hr
    have : r = [] := List.eq_nil_of_length_eq_zero (Nat.le_zero.1 hr)
    subst this
    exact ⟨[], rfl⟩
  | succ fuel ih =>
    intro r hr
    by_cases he : r = []
    · subst he
      exact ⟨[], rfl⟩
    · have hready := readyNodes_ne_nil he hacyc
      obtain ⟨v, hv⟩ := minByKeyFn_ne_none (f := g.nodeIdOfKey) hready
      have hvr : v ∈ r := List.mem_of_mem_filter (minByKeyFn_mem hv)
      have hlen : (r.erase v).length ≤ fuel := by
        rw [List.length_erase_of_mem hvr]
        omega
      obtain ⟨l, hl⟩ := ih (r.erase v) hlen
      refine ⟨v :: l, ?_⟩
      simp only [NxDiGraph.kahnAux]
      rw [if_neg (by simpa using he)]
      simp only [hv, hl]
      rfl

/-- Kahn's algorithm: the emitted list is a permutation of the remaining
nodes; distinct endpoints of an edge inside the remaining set appear
producer first; and an element whose remaining predecessors were all
emitted before some earlier position has a node id larger than the one
emitted there (the min-id tie-break). -/
theorem kahnAux_spec (g : NxDiGraph)
    (hinj : ∀ k1 ∈ g.nodeKeys, ∀ k2 ∈ g.nodeKeys,
      g.nodeIdOfKey k1 = g.nodeIdOfKey k2 → k1 = k2) :
    ∀ (fuel : Nat) (r : List String), r.Nodup → (∀ k ∈ r, k ∈ g.nodeKeys) →
    ∀ l, g.kahnAux fuel r = .ok l →
    l.Perm r ∧
    (∀ e ∈ g.edges, e.src ∈ r → e.dst ∈ r → e.src ≠ e.dst →
      List.Sublist [e.src, e.dst] l) ∧
    (∀ l1 u l2, l = l1 ++ u :: l2 → ∀ w ∈ l2,
      (∀ e ∈ g.edges, e.dst = w → e.src ∈ r → e.src ∈ l1) →
      g.nodeIdOfKey u < g.nodeIdOfKey w) := by
  intro fuel
  induction fuel with
  | zero =>
    intro r hnd hsub l hok
    simp only [NxDiGraph.kahnAux] at hok
    split at hok
    · rename_i hre
      have hr : r = [] := List.isEmpty_iff.1 hre
      cases hok
      subst hr
      refine ⟨List.Perm.refl _, ?_, ?_⟩
      · intro e _ hsrc _ _
        simp at hsrc
      · intro l1 u l2 hsplit
        exact absurd hsplit (by simp)
    · exact absurd hok (by simp)
  | succ fuel ih =>
    intro r hnd hsub l hok
    by_cases hre : r = []
    · subst hre
      simp only [NxDiGraph.kahnAux, List.isEmpty_nil, if_true] at hok
      cases hok
      refine ⟨List.Perm.refl _, ?_, ?_⟩
      · intro e _ hsrc _ _
        simp at hsrc
      · intro l1 u l2 hsplit
        exact absurd hsplit (by simp)
    · simp only [NxDiGraph.kahnAux] at hok
      rw [if_neg (by simpa using hre)] at hok
      cases hmv : NxDiGraph.minByKeyFn g.nodeIdOfKey (g.readyNodes r) with
      | none =>
        simp only [hmv] at hok
        exact absurd hok (by simp)
      | some v =>
        simp only [hmv] at hok
        cases hrec : g.kahnAux fuel (r.erase v) with
        | error err =>
          rw [hrec] at hok
          exact absurd hok (by simp [Except.map])
        | ok l' =>
          rw [hrec] at hok
          simp only [Except.map, Except.ok.injEq] at hok
          subst hok
          have hvready : v ∈ g.readyNodes r := minByKeyFn_mem hmv
          have hvr : v ∈ r := List.mem_of_mem_filter hvready
          have hvnopred : ¬ ∃ e ∈ g.edges, e.src ∈ r ∧ e.dst = v :=
            (mem_readyNodes.1 hvready).2
          have hnd' : (r.erase v).Nodup := hnd.erase v
          have hsub' : ∀ k ∈ r.erase v, k ∈ g.nodeKeys := fun k hk =>
            hsub k (List.mem_of_mem_erase hk)
          obtain ⟨ihperm, ihsubl, ihtie⟩ := ih (r.erase v) hnd' hsub' l' hrec
          have hpermr : (v :: l').Perm r :=
            (ihperm.cons v).trans (List.perm_cons_erase hvr).symm
          have hvnotl' : v ∉ l' := fun hc =>
            hnd.not_mem_erase (ihperm.mem_iff.1 hc)
          refine ⟨hpermr, ?_, ?_⟩
          · intro e he hsrc hdst hne
            by_cases hdv : e.dst = v
            · exact absurd ⟨e, he, hsrc, hdv⟩ hvnopred
            · have hdst' : e.dst ∈ r.erase v := (List.mem_erase_of_ne hdv).2 hdst
              by_cases hsv : e.src = v
              · have hdl' : e.dst ∈ l' := ihperm.mem_iff.2 hdst'
                rw [hsv]
                exact (List.singleton_sublist.2 hdl').cons₂ v
              · have hsrc' : e.src ∈ r.erase v := (List.mem_erase_of_ne hsv).2 hsrc
                exact (ihsubl e he hsrc' hdst' hne).cons v
          · intro l1 u l2 hsplit w hw hpred
            cases l1 with
            | nil =>
              simp only [List.nil_append, List.cons.injEq] at hsplit
              obtain ⟨hvu, hl2⟩ := hsplit
              subst hvu
              subst hl2
              have hwr : w ∈ r := List.mem_of_mem_erase (ihperm.mem_iff.1 hw)
              have hwready : w ∈ g.readyNodes r := by
                refine mem_readyNodes.2 ⟨hwr, ?_⟩
                rintro ⟨e, he, hsrc, hdst⟩
                have := hpred e he hdst hsrc
                simp at this
              have hle := minByKeyFn_le hmv w hwready
              have hwv : w ≠ v := fun hc => hvnotl' (hc ▸ hw)
              refine Nat.lt_of_le_of_ne hle (fun heq => ?_)
              exact hwv (hinj w (hsub w hwr) v (hsub v hvr) heq.symm)
            | cons a l1' =>
              simp only [List.cons_append, List.cons.injEq] at hsplit
              obtain ⟨hva, hl'⟩ := hsplit
              refine ihtie l1' u l2 hl' w hw ?_
              intro e he hdst hsrc'
              have hsr : e.src ∈ r := List.mem_of_mem_erase hsrc'
              have hmem := hpred e he hdst hsr
              have hsv : e.src ≠ v := (hnd.mem_erase_iff.1 hsrc').1
              rw [← hva] at hmem
              rcases List.mem_cons.1 hmem with hc | hc
              · exact absurd hc hsv
              · exact hc

theorem nodup_fst_eq {d : List (Nat × String)} (hnd : (d.map Prod.fst).Nodup)
    {i : Nat} {a b : String} (ha : (i, a) ∈ d) (hb : (i, b) ∈ d) : a = b := by
  induction d with
  | nil => simp at ha
  | cons p d ih =>
    simp only [List.map_cons, List.nodup_cons] at hnd
    rcases List.mem_cons.1 ha with ha1 | ha1 <;>
      rcases List.mem_cons.1 hb with hb1 | hb1
    · rw [← ha1] at hb1
      exact (congrArg Prod.snd hb1).symm
    · exfalso
      apply hnd.1
      rw [← ha1]
      exact List.mem_map.2 ⟨(i, b), hb1, rfl⟩
    · exfalso
      apply hnd.1
      rw [← hb1]
      exact List.mem_map.2 ⟨(i, a), ha1, rfl⟩
    · exact ih hnd.2 ha1 hb1

/-- In a well-formed graph the stored node id determines the key. -/
theorem wellFormed_id_inj {g : NNCFGraph} (hw : WellFormed g) :
    ∀ k1 ∈ g.nx_graph.nodeKeys, ∀ k2 ∈ g.nx_graph.nodeKeys,
      g.nx_graph.nodeIdOfKey k1 = g.nx_graph.nodeIdOfKey k2 → k1 = k2 := by
  intro k1 h1 k2 h2 heq
  obtain ⟨a1, ha1⟩ := Option.isSome_iff_exists.1 (lookupNode_isSome_of_mem h1)
  obtain ⟨a2, ha2⟩ := Option.isSome_iff_exists.1 (lookupNode_isSome_of_mem h2)
  have hid1 : g.nx_graph.nodeIdOfKey k1 = a1.id := by
    unfold NxDiGraph.nodeIdOfKey
    rw [ha1]
  have hid2 : g.nx_graph.nodeIdOfKey k2 = a2.id := by
    unfold NxDiGraph.nodeIdOfKey
    rw [ha2]
  have hd1 := (hw.node_to_dict (k1, a1) (alistFind_mem ha1)).1
  have hd2 := (hw.node_to_dict (k2, a2) (alistFind_mem ha2)).1
  have hideq : a2.id = a1.id := (hid1.symm.trans (heq.trans hid2)).symm
  have hd1' : (a1.id, k1) ∈ g.node_id_to_key_dict := hd1
  have hd2' : (a1.id, k2) ∈ g.node_id_to_key_dict := by
    rw [← hideq]
    exact hd2
  exact nodup_fst_eq hw.ids_nodup hd1' hd2' 

/-- C1: on every reachable acyclic graph, `topological_sort` succeeds and
emits each node of the graph exactly once (the emitted key list is a
permutation of the node keys), the producer of every edge before its
consumer, with the smaller node id first whenever several nodes are
simultaneously ready (all remaining predecessors already emitted); being a
pure function of the graph, a repeated call returns the identical
sequence. -/
theorem C1_topological_sort_correct (g : NNCFGraph) (hr : Reachable g)
    (hacyc : ¬ HasCycle g.nx_graph) :
    ∃ ks : List String,
      g.topological_sort = .ok (ks.map g.nncfNodeOfKey) ∧
      ks.Perm g.nx_graph.nodeKeys ∧
      (∀ e ∈ g.nx_graph.edges, List.Sublist [e.src, e.dst] ks) ∧
      (∀ l1 u l2, ks = l1 ++ u :: l2 → ∀ w ∈ l2,
        (∀ e ∈ g.nx_graph.edges, e.dst = w → e.src ∈ l1) →
        g.nx_graph.nodeIdOfKey u < g.nx_graph.nodeIdOfKey w) ∧
      g.topological_sort = g.topological_sort := by
  have hw := reachable_wellFormed hr
  obtain ⟨ks, hks⟩ := kahnAux_ok g.nx_graph hacyc g.nx_graph.nodeKeys.length
    g.nx_graph.nodeKeys (Nat.le_refl _)
  obtain ⟨hperm, hsubl, htie⟩ := kahnAux_spec g.nx_graph (wellFormed_id_inj hw)
    g.nx_graph.nodeKeys.length g.nx_graph.nodeKeys hw.keys_nodup
    (fun k hk => hk) ks hks
  refine ⟨ks, ?_, hperm, ?_, ?_, rfl⟩
  · unfold NNCFGraph.topological_sort
    rw [hks]
    rfl
  · intro e he
    have h1 := (hw.edge_ends e he).1
    have h2 := (hw.edge_ends e he).2
    have hne : e.src ≠ e.dst := by
      intro hc
      exact hacyc ⟨e.src, RelPath.single ⟨e, he, rfl, hc.symm⟩⟩
    exact hsubl e he h1 h2 hne
  · intro l1 u l2 hsplit w hw2 hpred
    exact htie l1 u l2 hsplit w hw2 (fun e he hdst _ => hpred e he hdst)

theorem C1_topological_sort_correct_witness :
    Reachable cgA ∧ ¬ HasCycle cgA.nx_graph ∧
    (∃ ks : List String,
      cgA.topological_sort = .ok (ks.map cgA.nncfNodeOfKey) ∧
      ks.Perm cgA.nx_graph.nodeKeys ∧
      (∀ e ∈ cgA.nx_graph.edges, List.Sublist [e.src, e.dst] ks) ∧
      (∀ l1 u l2, ks = l1 ++ u :: l2 → ∀ w ∈ l2,
        (∀ e ∈ cgA.nx_graph.edges, e.dst = w → e.src ∈ l1) →
        cgA.nx_graph.nodeIdOfKey u < cgA.nx_graph.nodeIdOfKey w) ∧
      cgA.topological_sort = cgA.topological_sort) := by
  have hnc : ¬ HasCycle cgA.nx_graph :=
    no_cycle_of_rank cgA.nx_graph cgA.nx_graph.nodeIdOfKey (by decide)
  exact ⟨reachable_cgA, hnc, C1_topological_sort_correct cgA reachable_cgA hnc⟩

/-! ### C8 — recursive multi-visit traversal -/

theorem mem_succKeys_iff {g : NxDiGraph} {a b : String} :
    b ∈ g.succKeys a ↔ ∃ e ∈ g.edges, e.src = a ∧ e.dst = b := by
  unfold NxDiGraph.succKeys NxDiGraph.outEdges
  simp only [List.mem_map, List.mem_filter, decide_eq_true_eq]
  constructor
  · rintro ⟨e, ⟨he, hsrc⟩, hdst⟩
    exact ⟨e, he, hsrc, hdst⟩
  · rintro ⟨e, he, hsrc, hdst⟩
    exact ⟨e, ⟨he, hsrc⟩, hdst⟩

theorem mem_predKeys_iff {g : NxDiGraph} {a b : String} :
    b ∈ g.predKeys a ↔ ∃ e ∈ g.edges, e.src = b ∧ e.dst = a := by
  unfold NxDiGraph.predKeys NxDiGraph.inEdges
  simp only [List.mem_map, List.mem_filter, decide_eq_true_eq]
  constructor
  · rintro ⟨e, ⟨he, hdst⟩, hsrc⟩
    exact ⟨e, he, hsrc, hdst⟩
  · rintro ⟨e, he, hsrc, hdst⟩
    exact ⟨e, ⟨he, hdst⟩, hsrc⟩

/-- The never-stopping collecting visitor: `traverse_graph` returns the
accumulated output, which lists the visited nodes in visit order — one
entry per invocation of the traverse function. -/
theorem traverseAux_collect (g : NNCFGraph) (fwd : Bool) :
    ∀ (fuel : Nat) (k : String) (out : List NNCFNode),
    NNCFGraph.traverseAux g (fun n o => (false, o ++ [n])) fwd fuel k out =
      out ++ (visitSeq g fwd fuel k).map g.nncfNodeOfKey := by
  intro fuel
  induction fuel with
  | zero =>
    intro k out
    simp [NNCFGraph.traverseAux, visitSeq]
  | succ fuel ih =>
    intro k out
    have hfold : ∀ (ks : List String) (acc : List NNCFNode),
        List.foldl (fun o k' =>
          NNCFGraph.traverseAux g (fun n o => (false, o ++ [n])) fwd fuel k' o)
          acc ks =
        acc ++ (ks.flatMap (visitSeq g fwd fuel)).map g.nncfNodeOfKey := by
      intro ks
      induction ks with
      | nil => intro acc; simp
      | cons k' ks ihk =>
        intro acc
        rw [List.foldl_cons, ih k' acc,
          ihk (acc ++ (visitSeq g fwd fuel k').map g.nncfNodeOfKey)]
        simp [List.flatMap_cons, List.map_append, List.append_assoc]
    simp only [NNCFGraph.traverseAux, visitSeq, if_false, hfold,
      List.map_cons, List.append_assoc]
    rfl

theorem pathsFrom_ne_nil (g : NNCFGraph) (fwd : Bool) :
    ∀ (fuel : Nat) (k : String) (p : List String),
    p ∈ pathsFrom g fwd fuel k → p ≠ [] := by
  intro fuel
  cases fuel with
  | zero => intro k p hp; simp [pathsFrom] at hp
  | succ fuel =>
    intro k p hp
    simp only [pathsFrom, List.mem_cons, List.mem_flatMap, List.mem_map] at hp
    rcases hp with hp | ⟨k', -, q, -, hq⟩
    · rw [hp]
      simp
    · rw [← hq]
      simp

theorem pathsFrom_head (g : NNCFGraph) (fwd : Bool) :
    ∀ (fuel : Nat) (k : String) (p : List String),
    p ∈ pathsFrom g fwd fuel k → p.head? = some k := by
  intro fuel
  cases fuel with
  | zero => intro k p hp; simp [pathsFrom] at hp
  | succ fuel =>
    intro k p hp
    simp only [pathsFrom, List.mem_cons, List.mem_flatMap, List.mem_map] at hp
    rcases hp with hp | ⟨k', -, q, -, hq⟩
    · rw [hp]
      rfl
    · rw [← hq]
      rfl

/-- Each invocation of the visitor on a node corresponds to one directed
path from the start to that node: the visit count equals the number of
enumerated paths ending there. -/
theorem count_visitSeq_eq_countP_paths (g : NNCFGraph) (fwd : Bool) (v : String) :
    ∀ (fuel : Nat) (k : String),
    (visitSeq g fwd fuel k).count v =
      (pathsFrom g fwd fuel k).countP (fun p => p.getLast? == some v) := by
  intro fuel
  induction fuel with
  | zero => intro k; simp [visitSeq, pathsFrom]
  | succ fuel ih =>
    intro k
    simp only [visitSeq, pathsFrom]
    rw [List.count_cons, List.countP_cons]
    have hheads : (if k == v then 1 else 0) =
        (if (([k] : List String).getLast? == some v) = true then 1 else 0) := by
      by_cases hkv : k = v <;> simp [hkv]
    have htails : (((if fwd then g.nx_graph.succKeys k else g.nx_graph.predKeys k)).flatMap
          (visitSeq g fwd fuel)).count v =
        (((if fwd then g.nx_graph.succKeys k else g.nx_graph.predKeys k)).flatMap
          (fun k' => (pathsFrom g fwd fuel k').map (fun p => k :: p))).countP
          (fun p => p.getLast? == some v) := by
      rw [List.count_flatMap, List.countP_flatMap]
      congr 1
      apply List.map_congr_left
      intro k' hk'
      simp only [Function.comp]
      rw [ih k', List.countP_map]
      apply List.countP_congr
      intro p hp
      have hne := pathsFrom_ne_nil g fwd fuel k' p hp
      cases p with
      | nil => exact absurd rfl hne
      | cons x xs =>
        simp [Function.comp, List.getLast?_cons_cons]
    rw [htails, hheads]


theorem relPath_trans {r : String → String → Prop} {a b c : String}
    (h1 : RelPath r a b) (h2 : RelPath r b c) : RelPath r a c := by
  induction h1 with
  | single h => exact RelPath.cons h h2
  | cons h _ ih => exact RelPath.cons h (ih h2)

theorem relPath_flip {r : String → String → Prop} {a b : String}
    (h : RelPath (fun x y => r y x) a b) : RelPath r b a := by
  induction h with
  | single h => exact RelPath.single h
  | cons h _ ih => exact relPath_trans ih (RelPath.single h)

theorem relPath_mono {r s : String → String → Prop} {a b : String}
    (hm : ∀ c d, r c d → s c d) (h : RelPath r a b) : RelPath s a b := by
  induction h with
  | single h => exact RelPath.single (hm _ _ h)
  | cons h _ ih => exact RelPath.cons (hm _ _ h) ih

theorem chain_reaches {R : String → String → Prop} :
    ∀ (l : List String) (x : String), List.Chain' R (x :: l) →
    ∀ y ∈ l, RelPath R x y := by
  intro l
  induction l with
  | nil => intro x _ y hy; simp at hy
  | cons z l ih =>
    intro x hchain y hy
    have hxz : R x z := (List.chain'_cons.1 hchain).1
    have htail : List.Chain' R (z :: l) := (List.chain'_cons.1 hchain).2
    rcases List.mem_cons.1 hy with hy | hy
    · subst hy
      exact RelPath.single hxz
    · exact RelPath.cons hxz (ih z htail y hy)

/-- The step relation of the traversal is contained in edgeRel (forward) or
its reverse (backward). -/
theorem step_to_edgeRel {g : NNCFGraph} (fwd : Bool) {a b : String}
    (h : b ∈ (if fwd then g.nx_graph.succKeys a else g.nx_graph.predKeys a)) :
    if fwd then edgeRel g.nx_graph a b else edgeRel g.nx_graph b a := by
  cases fwd with
  | true =>
    rw [if_pos rfl] at h ⊢
    obtain ⟨e, he, h1, h2⟩ := mem_succKeys_iff.1 h
    exact ⟨e, he, h1, h2⟩
  | false =>
    rw [if_neg Bool.false_ne_true] at h ⊢
    obtain ⟨e, he, h1, h2⟩ := mem_predKeys_iff.1 h
    exact ⟨e, he, h1, h2⟩

/-- On an acyclic graph a traversal path never repeats a node. -/
theorem chain_path_nodup {g : NNCFGraph} {fwd : Bool}
    (hacyc : ¬ HasCycle g.nx_graph) :
    ∀ p : List String, List.Chain'
      (fun a b => b ∈ (if fwd then g.nx_graph.succKeys a else g.nx_graph.predKeys a))
      p → p.Nodup := by
  intro p
  induction p with
  | nil => intro _; exact List.nodup_nil
  | cons x p ih =>
    intro hchain
    have htail := List.Chain'.tail hchain
    refine List.nodup_cons.2 ⟨?_, ih htail⟩
    intro hx
    have hpath := chain_reaches p x hchain x hx
    apply hacyc
    cases fwd with
    | true =>
      refine ⟨x, ?_⟩
      refine relPath_mono ?_ hpath
      intro c d hcd
      have := step_to_edgeRel (g := g) true hcd
      rw [if_pos rfl] at this
      exact this
    | false =>
      refine ⟨x, ?_⟩
      refine relPath_flip (relPath_mono ?_ hpath)
      intro c d hcd
      have := step_to_edgeRel (g := g) false hcd
      rw [if_neg Bool.false_ne_true] at this
      exact this

/-- In a well-formed graph the adjacency list of a node is duplicate-free
(the `DiGraph` holds at most one edge per ordered pair). -/
theorem nexts_nodup {g : NNCFGraph} (hw : WellFormed g) (fwd : Bool) (k : String) :
    (if fwd then g.nx_graph.succKeys k else g.nx_graph.predKeys k).Nodup := by
  have hedup : g.nx_graph.edges.Nodup := hw.edge_pairs_nodup.of_map
  cases fwd with
  | true =>
    rw [if_pos rfl]
    unfold NxDiGraph.succKeys NxDiGraph.outEdges
    have hfil : (g.nx_graph.edges.filter (fun e => decide (e.src = k))).Nodup :=
      hedup.filter _
    have hsub : ((g.nx_graph.edges.filter (fun e => decide (e.src = k))).map
        (fun e => (e.src, e.dst))).Sublist
        (g.nx_graph.edges.map (fun e => (e.src, e.dst))) :=
      (List.filter_sublist _).map _
    have hfpairs := hw.edge_pairs_nodup.sublist hsub
    have hinj := List.inj_on_of_nodup_map hfpairs
    refine hfil.map_on ?_
    intro e1 h1 e2 h2 hdst
    have hs1 : e1.src = k := by
      have := (List.mem_filter.1 h1).2; simpa using this
    have hs2 : e2.src = k := by
      have := (List.mem_filter.1 h2).2; simpa using this
    exact hinj h1 h2 (by rw [hs1, hs2, hdst])
  | false =>
    rw [if_neg Bool.false_ne_true]
    unfold NxDiGraph.predKeys NxDiGraph.inEdges
    have hfil : (g.nx_graph.edges.filter (fun e => decide (e.dst = k))).Nodup :=
      hedup.filter _
    have hsub : ((g.nx_graph.edges.filter (fun e => decide (e.dst = k))).map
        (fun e => (e.src, e.dst))).Sublist
        (g.nx_graph.edges.map (fun e => (e.src, e.dst))) :=
      (List.filter_sublist _).map _
    have hfpairs := hw.edge_pairs_nodup.sublist hsub
    have hinj := List.inj_on_of_nodup_map hfpairs
    refine hfil.map_on ?_
    intro e1 h1 e2 h2 hsrc
    have hd1 : e1.dst = k := by
      have := (List.mem_filter.1 h1).2; simpa using this
    have hd2 : e2.dst = k := by
      have := (List.mem_filter.1 h2).2; simpa using this
    exact hinj h1 h2 (by rw [hd1, hd2, hsrc])

/-- Every enumerated path is a chain of adjacency steps. -/
theorem pathsFrom_chain (g : NNCFGraph) (fwd : Bool) :
    ∀ (fuel : Nat) (k : String) (p : List String), p ∈ pathsFrom g fwd fuel k →
    List.Chain'
      (fun a b => b ∈ (if fwd then g.nx_graph.succKeys a else g.nx_graph.predKeys a))
      p := by
  intro fuel
  induction fuel with
  | zero => intro k p hp; simp [pathsFrom] at hp
  | succ fuel ih =>
    intro k p hp
    simp only [pathsFrom, List.mem_cons, List.mem_flatMap, List.mem_map] at hp
    rcases hp with hp | ⟨k', hk', q, hq, hcons⟩
    · rw [hp]
      simp
    · rw [← hcons]
      refine List.chain'_cons'.2 ⟨?_, ih k' q hq⟩
      intro b hb
      rw [pathsFrom_head g fwd fuel k' q hq] at hb
      rw [Option.mem_some_iff.1 hb] at hk'
      exact hk'

/-- Every enumerated path ends in a node of the graph… more precisely, all
its members are node keys, provided the start is one. -/
theorem pathsFrom_mem_nodeKeys {g : NNCFGraph} (hw : WellFormed g) (fwd : Bool) :
    ∀ (fuel : Nat) (k : String), k ∈ g.nx_graph.nodeKeys →
    ∀ p ∈ pathsFrom g fwd fuel k, ∀ v ∈ p, v ∈ g.nx_graph.nodeKeys := by
  intro fuel
  induction fuel with
  | zero => intro k _ p hp; simp [pathsFrom] at hp
  | succ fuel ih =>
    intro k hk p hp v hv
    simp only [pathsFrom, List.mem_cons, List.mem_flatMap, List.mem_map] at hp
    rcases hp with hp | ⟨k', hk', q, hq, hcons⟩
    · rw [hp] at hv
      rw [List.mem_singleton.1 hv]
      exact hk
    · rw [← hcons] at hv
      rcases List.mem_cons.1 hv with hv | hv
      · rw [hv]; exact hk
      · have hk'mem : k' ∈ g.nx_graph.nodeKeys := by
          cases fwd with
          | true =>
            rw [if_pos rfl] at hk'
            obtain ⟨e, he, -, hd⟩ := mem_succKeys_iff.1 hk'
            rw [← hd]
            exact (hw.edge_ends e he).2
          | false =>
            rw [if_neg Bool.false_ne_true] at hk'
            obtain ⟨e, he, hs, -⟩ := mem_predKeys_iff.1 hk'
            rw [← hs]
            exact (hw.edge_ends e he).1
        exact ih k' hk'mem q hq v hv

/-- The enumerated paths are pairwise distinct lists. -/
theorem pathsFrom_nodup {g : NNCFGraph} (hw : WellFormed g) (fwd : Bool) :
    ∀ (fuel : Nat) (k : String), (pathsFrom g fwd fuel k).Nodup := by
  intro fuel
  induction fuel with
  | zero => intro k; simp [pathsFrom]
  | succ fuel ih =>
    intro k
    simp only [pathsFrom]
    refine List.nodup_cons.2 ⟨?_, ?_⟩
    · intro hmem
      simp only [List.mem_flatMap, List.mem_map] at hmem
      obtain ⟨k', -, q, hq, hcons⟩ := hmem
      have hne := pathsFrom_ne_nil g fwd fuel k' q hq
      exact hne (List.cons_injective hcons)
    · refine List.nodup_flatMap.2 ⟨?_, ?_⟩
      · intro k' _
        exact (ih k').map (List.cons_injective)
      · refine ((nexts_nodup hw fwd k).imp ?_)
        intro k1 k2 hne
        intro x hx1 hx2
        simp only [Function.onFun, List.mem_map] at hx1 hx2
        obtain ⟨p1, hp1, hc1⟩ := hx1
        obtain ⟨p2, hp2, hc2⟩ := hx2
        have hp12 : p1 = p2 := List.cons_injective (hc1.trans hc2.symm)
        have h1 := pathsFrom_head g fwd fuel k1 p1 hp1
        have h2 := pathsFrom_head g fwd fuel k2 p2 hp2
        rw [hp12, h2] at h1
        exact hne (Option.some.inj h1).symm

/-- Characterisation of the enumerated paths: exactly the nonempty adjacency
chains starting at the given key, of at most `fuel` nodes. -/
theorem mem_pathsFrom_iff (g : NNCFGraph) (fwd : Bool) :
    ∀ (fuel : Nat) (k : String) (p : List String),
    p ∈ pathsFrom g fwd fuel k ↔
      (p.head? = some k ∧
       List.Chain'
         (fun a b => b ∈ (if fwd then g.nx_graph.succKeys a else g.nx_graph.predKeys a))
         p ∧
       p.length ≤ fuel) := by
  intro fuel
  induction fuel with
  | zero =>
    intro k p
    simp only [pathsFrom]
    constructor
    · intro hp; simp at hp
    · rintro ⟨hhead, -, hlen⟩
      cases p with
      | nil => simp at hhead
      | cons x q => simp at hlen
  | succ fuel ih =>
    intro k p
    constructor
    · intro hp
      refine ⟨pathsFrom_head g fwd fuel.succ k p hp, pathsFrom_chain g fwd fuel.succ k p hp, ?_⟩
      simp only [pathsFrom, List.mem_cons, List.mem_flatMap, List.mem_map] at hp
      rcases hp with hp | ⟨k', -, q, hq, hcons⟩
      · rw [hp]; simp
      · rw [← hcons]
        have hql := ((ih k' q).1 hq).2.2
        simp only [List.length_cons]
        omega
    · rintro ⟨hhead, hchain, hlen⟩
      cases p with
      | nil => simp at hhead
      | cons x rest =>
        have hx : x = k := by
          simp only [List.head?_cons, Option.some.injEq] at hhead
          exact hhead
        subst hx
        cases rest with
        | nil =>
          simp [pathsFrom]
        | cons k' rest =>
          have hstep : k' ∈ (if fwd then g.nx_graph.succKeys x
              else g.nx_graph.predKeys x) :=
            (List.chain'_cons.1 hchain).1
          have htail : List.Chain' _ (k' :: rest) := (List.chain'_cons.1 hchain).2
          have hrest : (k' :: rest) ∈ pathsFrom g fwd fuel k' := by
            refine (ih k' (k' :: rest)).2 ⟨rfl, htail, ?_⟩
            simp only [List.length_cons] at hlen ⊢
            omega
          simp only [pathsFrom, List.mem_cons, List.mem_flatMap, List.mem_map]
          right
          exact ⟨k', hstep, k' :: rest, hrest, rfl⟩

/-- Members of an adjacency chain rooted at a node of the graph are node
keys. -/
theorem chain_mem_keys {g : NNCFGraph} (hw : WellFormed g) (fwd : Bool) :
    ∀ (p : List String) (x : String), x ∈ g.nx_graph.nodeKeys →
    List.Chain'
      (fun a b => b ∈ (if fwd then g.nx_graph.succKeys a else g.nx_graph.predKeys a))
      (x :: p) →
    ∀ v ∈ (x :: p), v ∈ g.nx_graph.nodeKeys := by
  intro p
  induction p with
  | nil =>
    intro x hx _ v hv
    rw [List.mem_singleton.1 hv]
    exact hx
  | cons y p ih =>
    intro x hx hchain v hv
    have hxy : y ∈ (if fwd then g.nx_graph.succKeys x else g.nx_graph.predKeys x) :=
      (List.chain'_cons.1 hchain).1
    have hy : y ∈ g.nx_graph.nodeKeys := by
      cases fwd with
      | true =>
        rw [if_pos rfl] at hxy
        obtain ⟨e, he, -, hd⟩ := mem_succKeys_iff.1 hxy
        rw [← hd]
        exact (hw.edge_ends e he).2
      | false =>
        rw [if_neg Bool.false_ne_true] at hxy
        obtain ⟨e, he, hs, -⟩ := mem_predKeys_iff.1 hxy
        rw [← hs]
        exact (hw.edge_ends e he).1
    rcases List.mem_cons.1 hv with hv | hv
    · rw [hv]; exact hx
    · exact ih y hy (List.chain'_cons.1 hchain).2 v hv

/-- On an acyclic graph, an adjacency chain rooted at a node has at most
`number of nodes` members: the node count is always enough fuel. -/
theorem chain_length_le {g : NNCFGraph} (hw : WellFormed g) (fwd : Bool)
    (hacyc : ¬ HasCycle g.nx_graph) (p : List String) (x : String)
    (hx : x ∈ g.nx_graph.nodeKeys)
    (hchain : List.Chain'
      (fun a b => b ∈ (if fwd then g.nx_graph.succKeys a else g.nx_graph.predKeys a))
      (x :: p)) :
    (x :: p).length ≤ g.nx_graph.nodeKeys.length := by
  have hnodup : (x :: p).Nodup := chain_path_nodup hacyc (x :: p) hchain
  have hsub : ∀ v ∈ (x :: p), v ∈ g.nx_graph.nodeKeys :=
    chain_mem_keys hw fwd p x hx hchain
  calc (x :: p).length = (x :: p).toFinset.card :=
        (List.toFinset_card_of_nodup hnodup).symm
    _ ≤ g.nx_graph.nodeKeys.toFinset.card := by
        refine Finset.card_le_card ?_
        intro v hv
        rw [List.mem_toFinset] at hv ⊢
        exact hsub v hv
    _ ≤ g.nx_graph.nodeKeys.length := List.toFinset_card_le _

/-- C8: `traverse_graph` performs a depth-first recursion from the start
node with no visited set.  With the never-stopping collecting visitor it
returns the accumulated output, which lists the visited nodes in depth-first
visit order — one entry per invocation of the visitor; on an acyclic graph
with fuel covering the recursion depth (the node count always suffices), a
node is visited once per distinct directed path from the start to it:
its visit count equals the number of enumerated paths ending there, the
enumerated paths are pairwise distinct, and they are exactly the adjacency
chains (forward along edges, or backward when `traverse_forward` is false)
starting at the start node. -/
theorem C8_traverse_graph_multi_visit (g : NNCFGraph) (hr : Reachable g)
    (fwd : Bool) (hacyc : ¬ HasCycle g.nx_graph) (start : String)
    (hstart : start ∈ g.nx_graph.nodeKeys) (fuel : Nat)
    (hfuel : g.nx_graph.nodeKeys.length ≤ fuel) :
    NNCFGraph.traverse_graph g (fun n o => (false, o ++ [n])) fwd fuel start =
      (visitSeq g fwd fuel start).map g.nncfNodeOfKey ∧
    (∀ v : String, (visitSeq g fwd fuel start).count v =
      (pathsFrom g fwd fuel start).countP (fun p => p.getLast? == some v)) ∧
    (pathsFrom g fwd fuel start).Nodup ∧
    (∀ p : List String, p ∈ pathsFrom g fwd fuel start ↔
      (p.head? = some start ∧
       List.Chain'
         (fun a b => b ∈ (if fwd then g.nx_graph.succKeys a else g.nx_graph.predKeys a))
         p)) := by
  have hw : WellFormed g := reachable_wellFormed hr
  refine ⟨?_, ?_, ?_, ?_⟩
  · unfold NNCFGraph.traverse_graph
    rw [traverseAux_collect g fwd fuel start []]
    simp
  · intro v
    exact count_visitSeq_eq_countP_paths g fwd v fuel start
  · exact pathsFrom_nodup hw fwd fuel start
  · intro p
    constructor
    · intro hp
      have h := (mem_pathsFrom_iff g fwd fuel start p).1 hp
      exact ⟨h.1, h.2.1⟩
    · rintro ⟨hhead, hchain⟩
      refine (mem_pathsFrom_iff g fwd fuel start p).2 ⟨hhead, hchain, ?_⟩
      cases p with
      | nil => simp at hhead
      | cons x rest =>
        have hx : x = start := by
          simp only [List.head?_cons, Option.some.injEq] at hhead
          exact hhead
        subst hx
        exact le_trans (chain_length_le hw fwd hacyc rest x hstart hchain) hfuel

/-- C8 witness: the chain `in → conv → out` traversed forward from the input
node with fuel 3 (its node count). -/
theorem C8_traverse_graph_multi_visit_witness :
    (Reachable cgA ∧ ¬ HasCycle cgA.nx_graph ∧ "0 in" ∈ cgA.nx_graph.nodeKeys ∧
      cgA.nx_graph.nodeKeys.length ≤ 3) ∧
    (NNCFGraph.traverse_graph cgA (fun n o => (false, o ++ [n])) true 3 "0 in" =
      (visitSeq cgA true 3 "0 in").map cgA.nncfNodeOfKey ∧
    (∀ v : String, (visitSeq cgA true 3 "0 in").count v =
      (pathsFrom cgA true 3 "0 in").countP (fun p => p.getLast? == some v)) ∧
    (pathsFrom cgA true 3 "0 in").Nodup ∧
    (∀ p : List String, p ∈ pathsFrom cgA true 3 "0 in" ↔
      (p.head? = some "0 in" ∧
       List.Chain'
         (fun a b => b ∈ (if true then cgA.nx_graph.succKeys a else cgA.nx_graph.predKeys a))
         p))) := by
  have hnc : ¬ HasCycle cgA.nx_graph :=
    no_cycle_of_rank cgA.nx_graph cgA.nx_graph.nodeIdOfKey (by decide)
  exact ⟨⟨reachable_cgA, hnc, by decide, by decide⟩,
    C8_traverse_graph_multi_visit cgA reachable_cgA true hnc "0 in" (by decide) 3 (by decide)⟩
